import Mathlib

/-!
# The record framer of `wal::Writer` (`src/src/log_writer.cpp`)

A shallow embedding of the log writer and proofs about its framing protocol.

Modelling conventions.

* Bytes are natural numbers below 256; a byte string is a `List Nat`.  Multi-byte
  header fields are stored little-endian, as on the hosts the library targets.
* `size_t` values are natural numbers.  Within one operation every value is
  bounded by `kBlockSize + data.size()`, far below `2 ^ 64`; the two
  subtractions of `AppendRecord` are modelled with wrap-around (`sizeSub`).
  The running counter `size_` is not truncated: `2 ^ 64` bytes would have to
  pass through the buffered path before it wraps.
* `assert` is modelled as in a debug build: a failing assertion stops the
  operation with `Fault.assertion`.
* The file handle `file_` is an external collaborator.  The model records the
  sequence of `write` calls issued on it (`Writer.file_`); every `::write` is
  taken to transfer all its bytes.  For a file that was empty when it was
  opened, the file content is the concatenation of the writes
  (`Writer.contents`).
* The wrapper `tinyio::file::write` reports a failure when `::write` returns a
  value `<= 0`, so a write of zero bytes is reported as a failure and throws
  when `errno` is not 0.  `EmitPhysicalRecord`, `AppendRecord`, `step` and `run`
  describe the calls in which every write is reported as a success;
  `EmitPhysicalRecordPosix`, `AppendRecordPosix`, `stepPosix` and `runPosix` carry
  `errno` as a parameter and model the throw.  The two agree when `errno` is 0
  and, for one fragment, when its payload is not empty
  (`EmitPhysicalRecordPosix_eq`, `runPosix_clear`).
* `wal/log_writer.h` and `crc32.h` are not part of the sources.  Constants and
  the checksum are modelled from the specification; the field offsets of the
  packed `LogRecord` header are a parameter (`LogRecordLayout`).
-/

namespace wal

/-! ## Constants and types declared in the absent header -/

/-- Modelled from the spec: `kBlockSize` is declared in the absent header
`wal/log_writer.h`; the specification fixes `B = 32768`. -/
def kBlockSize : Nat := 32768

/-- Modelled from the spec: `kHeaderSize` is declared in the absent header
`wal/log_writer.h`; the specification fixes `H = 7`. -/
def kHeaderSize : Nat := 7

/-- Modelled from the spec: the enumeration `RecordType` is declared in the
absent header; the specification lists `ZERO=0, FULL=1, FIRST=2, MIDDLE=3,
LAST=4`. -/
inductive RecordType where
  | kZeroType
  | kFullType
  | kFirstType
  | kMiddleType
  | kLastType
  deriving DecidableEq, Repr

/-- Modelled from the spec: numeric value of a record type (one byte). -/
def RecordType.toByte : RecordType → Nat
  | .kZeroType => 0
  | .kFullType => 1
  | .kFirstType => 2
  | .kMiddleType => 3
  | .kLastType => 4

/-- Modelled from the spec: `kBlockPadding` is declared in the absent header;
the specification fixes the padding byte value `0x00`.  `kBlockPadding n` is
the first `n` bytes of the padding array. -/
def kBlockPadding (n : Nat) : List Nat := List.replicate n 0

/-! ## CRC-32 -/

/-- One bit step of the reflected CRC-32 with polynomial `0xEDB88320`. -/
def crcBit (c : Nat) : Nat :=
  if c % 2 = 1 then (c / 2) ^^^ 0xEDB88320 else c / 2

/-- One byte step of the reflected CRC-32: the byte is folded into the low
eight bits of the register, which is then shifted eight times. -/
def crcByte (c b : Nat) : Nat :=
  crcBit (crcBit (crcBit (crcBit (crcBit (crcBit (crcBit (crcBit (c ^^^ b))))))))

/-- Modelled from the spec: the class `Crc32` of the absent header `crc32.h`,
a streaming CRC-32 (polynomial `0xEDB88320`, reflected input and output,
initial value `0xFFFFFFFF`, final XOR `0xFFFFFFFF`).  The structure holds the
running register. -/
structure Crc32 where
  reg : Nat := 0xFFFFFFFF
  deriving DecidableEq, Repr

/-- Modelled from the spec: `Crc32::Append` feeds a byte span. -/
def Crc32.Append (c : Crc32) (bytes : List Nat) : Crc32 :=
  ⟨bytes.foldl crcByte c.reg⟩

/-- Modelled from the spec: `Crc32::End` yields the final 32-bit value. -/
def Crc32.End (c : Crc32) : Nat := c.reg ^^^ 0xFFFFFFFF

/-- CRC-32 of a whole byte string. -/
def crc32 (bytes : List Nat) : Nat := (Crc32.Append {} bytes).End

/-! ## The `LogRecord` header -/

/-- Byte offsets of the three fields of the packed seven-byte `LogRecord`
header: `checksum` (four bytes), `type` (one byte) and `size` (two bytes).
The declaration of `LogRecord` lives in the absent header `wal/log_writer.h`,
so the offsets are a parameter of the model. -/
structure LogRecordLayout where
  checksum : Nat
  type : Nat
  size : Nat
  deriving DecidableEq, Repr

/-- The layout the specification tabulates: checksum at 0, type at 4, length
at 5. -/
def specLayout : LogRecordLayout := ⟨0, 4, 5⟩

/-- The layout with the checksum first in which the length precedes the type. -/
def sizeTypeLayout : LogRecordLayout := ⟨0, 6, 4⟩

/-- The layouts under which the header accesses of the writer are defined: the
three bytes read at the address of `size` are the two length bytes followed by
the type byte, and the checksum occupies the remaining four bytes of the
header. -/
def LogRecordLayout.WellFormed (L : LogRecordLayout) : Prop :=
  L.type = L.size + 2 ∧ L.type + 1 ≤ kHeaderSize ∧ L.checksum + 4 ≤ kHeaderSize ∧
    (L.checksum + 4 ≤ L.size ∨ L.type + 1 ≤ L.checksum)

instance (L : LogRecordLayout) : Decidable L.WellFormed := by
  unfold LogRecordLayout.WellFormed; infer_instance

/-- The bytes of a C object; `none` is a byte that has never been written. -/
abbrev Mem := List (Option Nat)

/-- All bytes of a span, provided each of them has been written. -/
def allSome : List (Option Nat) → Option (List Nat)
  | [] => some []
  | none :: _ => none
  | some b :: rest => (allSome rest).map (fun bs => b :: bs)

/-- Store `bytes` at offset `off` of an object; undefined outside the object. -/
def memStore (m : Mem) (off : Nat) (bytes : List Nat) : Option Mem :=
  if off + bytes.length ≤ m.length then
    some (m.take off ++ bytes.map some ++ m.drop (off + bytes.length))
  else none

/-- Load `n` bytes at offset `off` of an object; undefined outside the object
and on bytes that have never been written. -/
def memLoad (m : Mem) (off n : Nat) : Option (List Nat) :=
  if off + n ≤ m.length then allSome ((m.drop off).take n) else none

/-- Little-endian bytes of a `uint16_t`. -/
def le16 (n : Nat) : List Nat := [n % 256, n / 256 % 256]

/-- Little-endian bytes of a `uint32_t`. -/
def le32 (n : Nat) : List Nat :=
  [n % 256, n / 256 % 256, n / 65536 % 256, n / 16777216 % 256]

/-- The header computation shared by `EmitPhysicalRecord` (lines 119-127) and
`AppendRecordToBuffer` (lines 43-51), on the header object `obj`:
`record.type = type; record.size = static_cast<uint16_t>(size);`
`crc32.Append(&record.size, kHeaderSize - sizeof(record.checksum));`
`crc32.Append(ptr, size); record.checksum = crc32.End();`
and finally the `kHeaderSize` bytes of the object are read out. -/
def fillHeader (L : LogRecordLayout) (obj : Mem) (type : RecordType) (size : Nat)
    (payload : List Nat) : Option (List Nat) :=
  (memStore obj L.type [type.toByte]).bind fun m1 =>
  (memStore m1 L.size (le16 (size % 65536))).bind fun m2 =>
  (memLoad m2 L.size (kHeaderSize - 4)).bind fun hdr =>
  (memStore m2 L.checksum (le32 (((Crc32.Append {} hdr).Append payload).End))).bind fun m3 =>
  memLoad m3 0 kHeaderSize

/-! ## Writer state -/

/-- Ways in which an operation of the model stops without a result. -/
inductive Fault where
  /-- an `assert` of the source failed -/
  | assertion
  /-- the header object was read outside its bytes or before being written -/
  | undefinedRead
  /-- the iteration budget of the model was exhausted -/
  | fuel
  deriving DecidableEq, Repr

/-- One call of `EmitPhysicalRecord`: its type, its payload and the value of
`block_offset_` at the call. -/
structure Fragment where
  type : RecordType
  payload : List Nat
  offset : Nat
  deriving DecidableEq, Repr

/-- State of a `wal::Writer`.  `file_` is the sequence of `write` calls issued
on the file handle, oldest first; `rep_` is the staging buffer; `emitted` is a
ghost log of the `EmitPhysicalRecord` calls, which no operation reads. -/
structure Writer where
  file_ : List (List Nat) := []
  block_offset_ : Nat := 0
  size_ : Nat := 0
  rep_ : List Nat := []
  emitted : List Fragment := []
  deriving DecidableEq, Repr

/-- A freshly opened writer on an empty file. -/
def fresh : Writer := {}

/-- The content of the file behind a writer that was opened on an empty file:
the concatenation of all writes. -/
def Writer.contents (w : Writer) : List Nat := w.file_.flatten

/-- Subtraction of `size_t` values, which wraps around modulo `2 ^ 64`. -/
def sizeSub (a b : Nat) : Nat := (a + 2 ^ 64 - b) % 2 ^ 64

/-! ## Operations -/

/-- `Writer::EmitPhysicalRecord(type, ptr, size)` with `payload` the `size`
bytes at `ptr`, for a call both of whose `file_.write` are reported as
successes.  The report of a failure for a write of zero bytes is the subject
of `EmitPhysicalRecordPosix`. -/
def EmitPhysicalRecord (L : LogRecordLayout) (w : Writer) (type : RecordType)
    (payload : List Nat) : Except Fault Writer :=
  if ¬ payload.length < 0xffff then .error .assertion
  else if ¬ w.block_offset_ + kHeaderSize + payload.length ≤ kBlockSize then .error .assertion
  else
    match fillHeader L (List.replicate kHeaderSize none) type payload.length payload with
    | none => .error .undefinedRead
    | some buf =>
      .ok { w with
        file_ := w.file_ ++ [buf, payload]
        block_offset_ := w.block_offset_ + (kHeaderSize + payload.length)
        emitted := w.emitted ++ [⟨type, payload, w.block_offset_⟩] }

/-- Lines 85-91 of `Writer::AppendRecord`: when fewer than `kHeaderSize` bytes
are left in the block, the trailer is filled with padding (a write is issued
only when `leftover > 0`) and `block_offset_` is reset. -/
def padBlock (w : Writer) : Writer :=
  let leftover := sizeSub kBlockSize w.block_offset_
  if leftover < kHeaderSize then
    { (if leftover > 0 then { w with file_ := w.file_ ++ [kBlockPadding leftover] } else w)
      with block_offset_ := 0 }
  else w

/-- Lines 96-106 of `Writer::AppendRecord`: the type of a fragment from the
flags `begin` and `end`. -/
def fragmentType (begin isEnd : Bool) : RecordType :=
  if begin && isEnd then RecordType.kFullType
  else if begin then RecordType.kFirstType
  else if isEnd then RecordType.kLastType
  else RecordType.kMiddleType

/-- The `do { ... } while (left > 0)` loop of `Writer::AppendRecord`.  `left` is
the byte string at `ptr` (its length is the variable `left`), `begin` the flag
of the same name; the first argument bounds the number of iterations. -/
def AppendRecordLoop (L : LogRecordLayout) :
    Nat → Writer → List Nat → Bool → Except Fault Writer
  | 0, _, _, _ => .error .fuel
  | fuel + 1, w, left, begin =>
    let w1 := padBlock w
    let avail := sizeSub (sizeSub kBlockSize w1.block_offset_) kHeaderSize
    let fragment_size := if left.length < avail then left.length else avail
    let isEnd := left.length == fragment_size
    let type := fragmentType begin isEnd
    (EmitPhysicalRecord L w1 type (left.take fragment_size)).bind fun w2 =>
      if (left.drop fragment_size).length > 0 then
        AppendRecordLoop L fuel w2 (left.drop fragment_size) false
      else .ok w2

/-- `Writer::AppendRecord(data)`.  The loop needs at most `data.length + 1`
iterations; the budget given is never exhausted (`AppendRecordLoop_spec`). -/
def AppendRecord (L : LogRecordLayout) (w : Writer) (data : List Nat) : Except Fault Writer :=
  if ¬ w.block_offset_ ≤ kBlockSize then .error .assertion
  else AppendRecordLoop L (2 * data.length + 2) w data true

/-- `Writer::FlushBuffer()`. -/
def FlushBuffer (w : Writer) : Writer :=
  if w.rep_.length > 0 then { w with file_ := w.file_ ++ [w.rep_], rep_ := [] } else w

/-- `Writer::AppendRecordToBuffer(data)`. -/
def AppendRecordToBuffer (L : LogRecordLayout) (w : Writer) (data : List Nat) :
    Except Fault Writer :=
  let size := kHeaderSize + data.length
  let w0 : Writer := { w with size_ := w.size_ + size }
  if w0.block_offset_ + size > kBlockSize then
    AppendRecord L (FlushBuffer w0) data
  else
    match fillHeader L (List.replicate kHeaderSize (some 0)) RecordType.kFullType
        data.length data with
    | none => .error .undefinedRead
    | some hdr =>
      .ok { w0 with
        rep_ := w0.rep_ ++ hdr ++ data
        block_offset_ := w0.block_offset_ + size }

/-- `Writer::Sync()`: `file_.sync()` writes nothing and changes no member. -/
def Sync (w : Writer) : Writer := w

/-- `Writer::Close()`: the handle is released without any write. -/
def Close (w : Writer) : Writer := { w with block_offset_ := 0, size_ := 0 }

/-- `Writer::Open(path, mode)`, when it succeeds: `file_.open` gives a new
handle, which `seekg(0)` positions at offset 0 and on which nothing has been
written yet; `rep_.reserve` changes the capacity of the buffer only, and no
other member is assigned. -/
def Open (w : Writer) : Writer := { w with file_ := [] }

/-- The calls a client can issue on an open writer. -/
inductive Op where
  | append (data : List Nat)
  | append_buffered (data : List Nat)
  | flush
  | sync
  deriving DecidableEq, Repr

/-- One call. -/
def step (L : LogRecordLayout) (w : Writer) : Op → Except Fault Writer
  | .append data => AppendRecord L w data
  | .append_buffered data => AppendRecordToBuffer L w data
  | .flush => .ok (FlushBuffer w)
  | .sync => .ok (Sync w)

/-- A sequence of calls, in order. -/
def run (L : LogRecordLayout) (w : Writer) : List Op → Except Fault Writer
  | [] => .ok w
  | op :: ops => (step L w op).bind fun w1 => run L w1 ops


/-! ## Reference reader

The companion reader is not part of the sources.  The reader below follows the
format description of the specification: the file is a sequence of
`kBlockSize`-byte blocks; a block holds fragments, each a `kHeaderSize`-byte
header followed by `length` payload bytes; a block trailer shorter than a
header is padding; a logical record is one `FULL` fragment or a run
`FIRST MIDDLE* LAST`.  Header fields are read at the offsets of a layout, and a
fragment whose stored checksum differs from the CRC-32 of its remaining header
bytes and payload is rejected.  With `specLayout` the reader is the one of the
documented format; with the layout of the writer it reads the fields where the
writer stores them. -/

/-- The record type with a given numeric value, for the four types that occur
in a file. -/
def RecordType.ofByte (b : Nat) : Option RecordType :=
  if b = 1 then some .kFullType
  else if b = 2 then some .kFirstType
  else if b = 3 then some .kMiddleType
  else if b = 4 then some .kLastType
  else none

/-- The `type` field of a header. -/
def headerType (L : LogRecordLayout) (hdr : List Nat) : Nat := hdr.getD L.type 0

/-- The `size` field of a header (two bytes, little-endian). -/
def headerSize (L : LogRecordLayout) (hdr : List Nat) : Nat :=
  hdr.getD L.size 0 + 256 * hdr.getD (L.size + 1) 0

/-- The `checksum` field of a header (four bytes, little-endian). -/
def headerChecksum (L : LogRecordLayout) (hdr : List Nat) : Nat :=
  hdr.getD L.checksum 0 + 256 * hdr.getD (L.checksum + 1) 0 +
    65536 * hdr.getD (L.checksum + 2) 0 + 16777216 * hdr.getD (L.checksum + 3) 0

/-- The header bytes outside the four checksum bytes, in file order: the
bytes a reader feeds to CRC-32 before the payload.  With the checksum in
front these are the bytes at offsets 4 to 6. -/
def headerBody (L : LogRecordLayout) (hdr : List Nat) : List Nat :=
  hdr.take L.checksum ++ hdr.drop (L.checksum + 4)

/-- Physical parse: the fragments of the byte string `bs` that starts at file
position `pos`, in order.  The header fields are read at the offsets of `L`
and the stored checksum is compared with the CRC-32 of the remaining header
bytes followed by the payload.  `none` reports a malformed file (truncated
fragment, fragment crossing a block boundary, checksum mismatch, unknown
type).  With `specLayout` this is the reader of the documented format: type at
offset 4, length at offsets 5 and 6, checksum over type, length and payload.
The first argument bounds the number of steps; `bs.length + 1` always
suffices. -/
def parseFragments (L : LogRecordLayout) :
    Nat → Nat → List Nat → Option (List (RecordType × List Nat))
  | 0, _, _ => none
  | fuel + 1, pos, bs =>
    if bs = [] then some []
    else
      let leftover := kBlockSize - pos % kBlockSize
      if leftover < kHeaderSize then
        parseFragments L fuel (pos + leftover) (bs.drop leftover)
      else if bs.length < kHeaderSize then none
      else
        let hdr := bs.take kHeaderSize
        let len := headerSize L hdr
        if leftover < kHeaderSize + len then none
        else if bs.length < kHeaderSize + len then none
        else if headerChecksum L hdr ≠
            crc32 (headerBody L hdr ++ (bs.drop kHeaderSize).take len) % 4294967296 then none
        else
          (RecordType.ofByte (headerType L hdr)).bind fun t =>
            (parseFragments L fuel (pos + (kHeaderSize + len)) (bs.drop (kHeaderSize + len))).map
              (fun fs => (t, (bs.drop kHeaderSize).take len) :: fs)

/-- Logical assembly: the fragment type state machine of the specification.
The first argument is the payload collected since an open `FIRST`. -/
def assemble : Option (List Nat) → List (RecordType × List Nat) → Option (List (List Nat))
  | none, [] => some []
  | some _, [] => none
  | none, (.kFullType, p) :: fs => (assemble none fs).map (fun rs => p :: rs)
  | none, (.kFirstType, p) :: fs => assemble (some p) fs
  | some acc, (.kMiddleType, p) :: fs => assemble (some (acc ++ p)) fs
  | some acc, (.kLastType, p) :: fs => (assemble none fs).map (fun rs => (acc ++ p) :: rs)
  | _, _ :: _ => none

/-- The logical records of a file. -/
def readRecords (L : LogRecordLayout) (bytes : List Nat) : Option (List (List Nat)) :=
  (parseFragments L (bytes.length + 1) 0 bytes).bind (assemble none)

/-! ## Auxiliary descriptions used in the statements -/

/-- The header bytes of a fragment of type `t` with payload `payload`, as the
writer produces them under a well-formed layout (`fillHeader_wellFormed`): the
checksum is the CRC-32 of the two length bytes, the type byte and the payload,
in this order. -/
def headerBytes (L : LogRecordLayout) (t : RecordType) (payload : List Nat) : List Nat :=
  if L.checksum = 0 then
    le32 (crc32 (le16 (payload.length % 65536) ++ [t.toByte] ++ payload)) ++
      (le16 (payload.length % 65536) ++ [t.toByte])
  else
    (le16 (payload.length % 65536) ++ [t.toByte]) ++
      le32 (crc32 (le16 (payload.length % 65536) ++ [t.toByte] ++ payload))


/-- Value of `block_offset_` after the padding step of an iteration that starts
at block offset `bo`. -/
def startOffset (bo : Nat) : Nat := if kBlockSize - bo < kHeaderSize then 0 else bo

/-- The write issued by the padding step of an iteration that starts at block
offset `bo`, if any. -/
def padWrites (bo : Nat) : List (List Nat) :=
  if kBlockSize - bo < kHeaderSize ∧ 0 < kBlockSize - bo then
    [kBlockPadding (kBlockSize - bo)]
  else []

/-- The writes by which a sequence of fragments reaches the file when the
first iteration starts at block offset `bo`: for each fragment the padding
write (if any), the header write and the payload write. -/
def fragWrites (L : LogRecordLayout) : Nat → List Fragment → List (List Nat)
  | _, [] => []
  | bo, f :: fs =>
    padWrites bo ++ [headerBytes L f.type f.payload, f.payload] ++
      fragWrites L (f.offset + kHeaderSize + f.payload.length) fs

/-- Consecutive fragments: each one is emitted at the offset the padding step
leaves, fits into its block, and the next iteration starts where it ends. -/
def Chain : Nat → List Fragment → Prop
  | _, [] => True
  | bo, f :: fs =>
    f.offset = startOffset bo ∧ f.offset + kHeaderSize + f.payload.length ≤ kBlockSize ∧
      Chain (f.offset + kHeaderSize + f.payload.length) fs

/-- Block offset after a sequence of fragments. -/
def endOffset : Nat → List Fragment → Nat
  | bo, [] => bo
  | _, f :: fs => endOffset (f.offset + kHeaderSize + f.payload.length) fs

/-- The type sequences of one logical record: `FULL`, or `FIRST MIDDLE* LAST`. -/
def RecordShape (types : List RecordType) : Prop :=
  types = [RecordType.kFullType] ∨
    ∃ n, types = RecordType.kFirstType ::
      (List.replicate n RecordType.kMiddleType ++ [RecordType.kLastType])

/-- The type sequences that complete an open record: `MIDDLE* LAST`. -/
def TailShape (types : List RecordType) : Prop :=
  ∃ n, types = List.replicate n RecordType.kMiddleType ++ [RecordType.kLastType]


/-- The calls that write the records `recs` one after the other, each either by
`append` (flag `false`) or by `append_buffered` immediately followed by
`flush` (flag `true`). -/
def script : List (Bool × List Nat) → List Op
  | [] => []
  | (true, data) :: recs => Op.append_buffered data :: Op.flush :: script recs
  | (false, data) :: recs => Op.append data :: script recs

/-- The fragments of a chain as the reader reports them. -/
def asRead (frs : List Fragment) : List (RecordType × List Nat) :=
  frs.map fun f => (f.type, f.payload)

/-- The header as the specification words it, to be compared with what the
writer produces: `[checksum: 4 bytes little-endian][type: 1 byte][length: 2
bytes little-endian]`, the checksum being the CRC-32 of the byte sequence
`type ++ length ++ payload`. -/
def specHeader (t : RecordType) (payload : List Nat) : List Nat :=
  le32 (crc32 ([t.toByte] ++ le16 payload.length ++ payload)) ++ [t.toByte] ++
    le16 payload.length

/-! ## Descriptions used in the statements about call sequences -/

/-- Total of `7 + |data|` over all `append_buffered data` calls of a sequence
of calls. -/
def enqueuedSize : List Op → Nat
  | [] => 0
  | Op.append_buffered data :: ops => kHeaderSize + data.length + enqueuedSize ops
  | _ :: ops => enqueuedSize ops

/-- The value the specification gives for `size`: the total of `7 + |data|`
over exactly those `append_buffered data` calls of a sequence of calls that
took the buffered path, that is, that were issued in a state with
`block_offset + 7 + |data| ≤ B`.  The state before each call is the one the
writer reaches by the calls before it. -/
def specSize (L : LogRecordLayout) : Writer → List Op → Nat
  | _, [] => 0
  | w, op :: ops =>
    (match op with
      | Op.append_buffered data =>
        if w.block_offset_ + (kHeaderSize + data.length) ≤ kBlockSize
        then kHeaderSize + data.length else 0
      | _ => 0) +
    ((step L w op).toOption.map fun w1 => specSize L w1 ops).getD 0

/-- Modelled from the spec: a newly constructed writer (`Writer::Writer()` is
defaulted; the member initialisers are in the absent header
`wal/log_writer.h`).  The specification gives `block_offset = 0` and an empty
buffer; no write has been issued. -/
def created : Writer := {}

/-- Fragments of one run of the loop, seen pairwise: an iteration that is
followed by another one ends exactly at the block end, and the next
iteration starts at offset 0 and consumes at least one byte. -/
def BlockFilling : List Fragment → Prop
  | [] => True
  | [_] => True
  | f :: g :: rest =>
    f.offset + kHeaderSize + f.payload.length = kBlockSize ∧ g.offset = 0 ∧ g.payload ≠ [] ∧
      BlockFilling (g :: rest)

/-! ## Failure reports of the file wrapper

`EmitPhysicalRecord`, `AppendRecord`, `step` and `run` above describe the
calls in which every `file_.write` is reported as a success.  The wrapper
`tinyio::file::write` of `wal/tinyio.hpp` reports a failure whenever `::write`
returns a value `<= 0`, which includes the write of zero bytes that
`EmitPhysicalRecord` issues for an empty payload.  The definitions below carry
the value of `errno` at that moment as a parameter and follow the POSIX branch
of the wrapper. -/

/-- `tinyio::file::write(buf, size, error_code)`, POSIX branch, on a handle on
which `::write` transfers all `size` bytes and so returns `size` without
touching `errno`: the pair of the returned count and the value left in
`error_code` (0 for a cleared code). -/
def tinyio.file.write_ec (errno size : Nat) : Nat × Nat :=
  let write_len := size
  if write_len ≤ 0 then (0, errno) else (write_len, 0)

/-- `tinyio::file::write(buf, size)`, the overload that throws: `none` when
`std::ios_base::failure` is thrown (`if (ec)`), the returned count
otherwise. -/
def tinyio.file.write (errno size : Nat) : Option Nat :=
  if (tinyio.file.write_ec errno size).2 ≠ 0 then none
  else some (tinyio.file.write_ec errno size).1

/-- How a call ends: it returns, it leaves by the exception of a reported
write failure (with the state of the writer at the throw), or the model
stops with a fault. -/
inductive Outcome where
  | returned (w : Writer)
  | threw (w : Writer)
  | fault (f : Fault)
  deriving DecidableEq, Repr

/-- Sequencing: only a call that returned is continued. -/
def Outcome.bind (o : Outcome) (f : Writer → Outcome) : Outcome :=
  match o with
  | .returned w => f w
  | .threw w => .threw w
  | .fault e => .fault e

/-- A call all of whose writes are reported as successes. -/
def Outcome.ofExcept : Except Fault Writer → Outcome
  | .ok w => .returned w
  | .error e => .fault e

/-- `Writer::EmitPhysicalRecord(type, ptr, size)` with the failure reports of
`file_.write`: the header is written first, then the payload, and
`block_offset_` is advanced only after both calls have returned. -/
def EmitPhysicalRecordPosix (errno : Nat) (L : LogRecordLayout) (w : Writer)
    (type : RecordType) (payload : List Nat) : Outcome :=
  if ¬ payload.length < 0xffff then .fault .assertion
  else if ¬ w.block_offset_ + kHeaderSize + payload.length ≤ kBlockSize then .fault .assertion
  else
    match fillHeader L (List.replicate kHeaderSize none) type payload.length payload with
    | none => .fault .undefinedRead
    | some buf =>
      let w1 : Writer := { w with
        file_ := w.file_ ++ [buf]
        emitted := w.emitted ++ [⟨type, payload, w.block_offset_⟩] }
      match tinyio.file.write errno kHeaderSize with
      | none => .threw w1
      | some _ =>
        let w2 : Writer := { w1 with file_ := w1.file_ ++ [payload] }
        match tinyio.file.write errno payload.length with
        | none => .threw w2
        | some _ =>
          .returned { w2 with block_offset_ := w2.block_offset_ + (kHeaderSize + payload.length) }

/-- The loop of `Writer::AppendRecord` with the failure reports of
`file_.write`.  The padding write of `padBlock` is issued for `leftover > 0`
bytes only, so it is never reported as a failure. -/
def AppendRecordLoopPosix (errno : Nat) (L : LogRecordLayout) :
    Nat → Writer → List Nat → Bool → Outcome
  | 0, _, _, _ => .fault .fuel
  | fuel + 1, w, left, begin =>
    let w1 := padBlock w
    let avail := sizeSub (sizeSub kBlockSize w1.block_offset_) kHeaderSize
    let fragment_size := if left.length < avail then left.length else avail
    let isEnd := left.length == fragment_size
    let type := fragmentType begin isEnd
    (EmitPhysicalRecordPosix errno L w1 type (left.take fragment_size)).bind fun w2 =>
      if (left.drop fragment_size).length > 0 then
        AppendRecordLoopPosix errno L fuel w2 (left.drop fragment_size) false
      else .returned w2

/-- `Writer::AppendRecord(data)` with the failure reports of `file_.write`. -/
def AppendRecordPosix (errno : Nat) (L : LogRecordLayout) (w : Writer) (data : List Nat) :
    Outcome :=
  if ¬ w.block_offset_ ≤ kBlockSize then .fault .assertion
  else AppendRecordLoopPosix errno L (2 * data.length + 2) w data true

/-- `Writer::AppendRecordToBuffer(data)` with the failure reports of
`file_.write`.  `FlushBuffer` writes only a buffer of `rep_.size() > 0` bytes,
so its write is never reported as a failure. -/
def AppendRecordToBufferPosix (errno : Nat) (L : LogRecordLayout) (w : Writer)
    (data : List Nat) : Outcome :=
  let size := kHeaderSize + data.length
  let w0 : Writer := { w with size_ := w.size_ + size }
  if w0.block_offset_ + size > kBlockSize then
    AppendRecordPosix errno L (FlushBuffer w0) data
  else
    match fillHeader L (List.replicate kHeaderSize (some 0)) RecordType.kFullType
        data.length data with
    | none => .fault .undefinedRead
    | some hdr =>
      .returned { w0 with
        rep_ := w0.rep_ ++ hdr ++ data
        block_offset_ := w0.block_offset_ + size }

/-- One call, with the failure reports of `file_.write`. -/
def stepPosix (errno : Nat) (L : LogRecordLayout) (w : Writer) : Op → Outcome
  | .append data => AppendRecordPosix errno L w data
  | .append_buffered data => AppendRecordToBufferPosix errno L w data
  | .flush => .returned (FlushBuffer w)
  | .sync => .returned (Sync w)

/-- A sequence of calls, in order, with the failure reports of `file_.write`;
a call that throws ends the sequence. -/
def runPosix (errno : Nat) (L : LogRecordLayout) (w : Writer) : List Op → Outcome
  | [] => .returned w
  | op :: ops => (stepPosix errno L w op).bind fun w1 => runPosix errno L w1 ops
/-! ## Header lemmas -/

theorem wellFormed_cases {L : LogRecordLayout} (h : L.WellFormed) :
    L = ⟨0, 6, 4⟩ ∨ L = ⟨3, 2, 0⟩ := by
  obtain ⟨c, t, s⟩ := L
  simp only [LogRecordLayout.WellFormed, kHeaderSize] at h
  simp only [LogRecordLayout.mk.injEq]
  omega

theorem crc32_append (a b : List Nat) :
    ((Crc32.Append {} a).Append b).End = crc32 (a ++ b) := by
  simp [crc32, Crc32.Append, List.foldl_append]

theorem fillHeader_wellFormed {L : LogRecordLayout} (h : L.WellFormed) (x : Option Nat)
    (t : RecordType) (payload : List Nat) :
    fillHeader L (List.replicate kHeaderSize x) t payload.length payload =
      some (headerBytes L t payload) := by
  rcases wellFormed_cases h with rfl | rfl
  · simp [fillHeader, memStore, memLoad, allSome, kHeaderSize, headerBytes, le16, le32,
      List.replicate, crc32_append]
  · simp [fillHeader, memStore, memLoad, allSome, kHeaderSize, headerBytes, le16, le32,
      List.replicate, crc32_append]

theorem headerBytes_length (L : LogRecordLayout) (t : RecordType) (payload : List Nat) :
    (headerBytes L t payload).length = kHeaderSize := by
  unfold headerBytes
  split <;> simp [le16, le32, kHeaderSize]

theorem headerType_headerBytes {L : LogRecordLayout} (h : L.WellFormed) (t : RecordType)
    (payload : List Nat) : headerType L (headerBytes L t payload) = t.toByte := by
  rcases wellFormed_cases h with rfl | rfl <;> simp [headerType, headerBytes, le16, le32]

theorem headerSize_headerBytes {L : LogRecordLayout} (h : L.WellFormed) (t : RecordType)
    (payload : List Nat) :
    headerSize L (headerBytes L t payload) = payload.length % 65536 := by
  rcases wellFormed_cases h with rfl | rfl <;>
    simp [headerSize, headerBytes, le16, le32] <;> omega

theorem headerChecksum_headerBytes {L : LogRecordLayout} (h : L.WellFormed) (t : RecordType)
    (payload : List Nat) :
    headerChecksum L (headerBytes L t payload) =
      crc32 (le16 (payload.length % 65536) ++ [t.toByte] ++ payload) % 4294967296 := by
  rcases wellFormed_cases h with rfl | rfl <;>
    simp [headerChecksum, headerBytes, le16, le32] <;> omega

theorem headerBody_headerBytes {L : LogRecordLayout} (h : L.WellFormed) (t : RecordType)
    (payload : List Nat) :
    headerBody L (headerBytes L t payload) =
      le16 (payload.length % 65536) ++ [t.toByte] := by
  rcases wellFormed_cases h with rfl | rfl <;>
    simp [headerBody, headerBytes, le16, le32]

theorem fillShape_wellFormed (c ty s x y z : Nat) (cs hdr buf : List Nat) (m1 m2 m3 : Mem)
    (hcs : cs.length = 4)
    (h1 : memStore (List.replicate 7 none) ty [x] = some m1)
    (h2 : memStore m1 s [y, z] = some m2)
    (h3 : memLoad m2 s 3 = some hdr)
    (h4 : memStore m2 c cs = some m3)
    (h5 : memLoad m3 0 7 = some buf) :
    LogRecordLayout.WellFormed ⟨c, ty, s⟩ := by
  match cs, hcs with
  | [a, b, d, e], _ =>
    have hty : ty ≤ 6 := by
      by_contra hn
      simp only [memStore, List.length_replicate, List.length_singleton] at h1
      rw [if_neg (by omega)] at h1
      simp at h1
    have hm1 : m1.length = 7 := by
      simp only [memStore, List.length_replicate, List.length_singleton] at h1
      rw [if_pos (by omega)] at h1
      simp only [Option.some.injEq] at h1
      subst h1
      simp
      omega
    have hm2 : m2.length = 7 := by
      simp only [memStore] at h2
      split at h2
      · simp only [Option.some.injEq] at h2
        subst h2
        simp at *
        omega
      · simp at h2
    have hs : s ≤ 4 := by
      by_contra hn
      simp only [memLoad, hm2] at h3
      rw [if_neg (by omega)] at h3
      simp at h3
    have hc : c ≤ 3 := by
      by_contra hn
      simp only [memStore, hm2, List.length_cons, List.length_nil] at h4
      rw [if_neg (by omega)] at h4
      simp at h4
    interval_cases ty <;> interval_cases s <;>
      (simp [memStore, List.replicate] at h1
       subst h1
       simp [memStore] at h2
       subst h2
       simp [memLoad, allSome] at h3) <;>
      interval_cases c <;>
      first
      | decide
      | (exfalso
         simp [memStore] at h4
         subst h4
         simp [memLoad, allSome] at h5)

theorem fillHeader_defined {L : LogRecordLayout} {t : RecordType} {n : Nat} {payload buf : List Nat}
    (h : fillHeader L (List.replicate kHeaderSize none) t n payload = some buf) :
    L.WellFormed := by
  obtain ⟨c, ty, s⟩ := L
  simp only [fillHeader, Option.bind_eq_some, kHeaderSize, le16] at h
  obtain ⟨m1, h1, m2, h2, hdr, h3, m3, h4, h5⟩ := h
  exact fillShape_wellFormed c ty s _ _ _ _ hdr buf m1 m2 m3 (by rfl) h1 h2 h3 h4 h5


/-! ## One iteration of the fragmenting loop -/

theorem sizeSub_eq {a b : Nat} (h : b ≤ a) (ha : a ≤ kBlockSize) : sizeSub a b = a - b := by
  unfold sizeSub
  unfold kBlockSize at ha
  omega

theorem padBlock_eq (w : Writer) (h : w.block_offset_ ≤ kBlockSize) :
    padBlock w = { w with file_ := w.file_ ++ padWrites w.block_offset_,
                          block_offset_ := startOffset w.block_offset_ } := by
  unfold padBlock
  simp only [sizeSub_eq h (Nat.le_refl _), startOffset, padWrites]
  by_cases h1 : kBlockSize - w.block_offset_ < kHeaderSize
  · by_cases h2 : 0 < kBlockSize - w.block_offset_
    · simp [h1, h2]
    · simp [h1, h2]
  · simp [h1]

theorem startOffset_le {bo : Nat} (h : bo ≤ kBlockSize) : startOffset bo + kHeaderSize ≤ kBlockSize := by
  unfold startOffset kBlockSize kHeaderSize at *
  split <;> omega

theorem EmitPhysicalRecord_ok {L : LogRecordLayout} (hL : L.WellFormed) (w : Writer)
    (t : RecordType) (p : List Nat) (h1 : p.length < 65535)
    (h2 : w.block_offset_ + kHeaderSize + p.length ≤ kBlockSize) :
    EmitPhysicalRecord L w t p = .ok { w with
      file_ := w.file_ ++ [headerBytes L t p, p]
      block_offset_ := w.block_offset_ + (kHeaderSize + p.length)
      emitted := w.emitted ++ [⟨t, p, w.block_offset_⟩] } := by
  unfold EmitPhysicalRecord
  rw [if_neg (by omega), if_neg (by omega), fillHeader_wellFormed hL]

theorem bind_ok {α β ε : Type} (a : α) (f : α → Except ε β) :
    (Except.ok a : Except ε α).bind f = f a := rfl

theorem bind_error {α β ε : Type} (e : ε) (f : α → Except ε β) :
    (Except.error e : Except ε α).bind f = Except.error e := rfl

/-- The last iteration: the rest of the record fits into the block. -/
theorem AppendRecordLoop_last {L : LogRecordLayout} (hL : L.WellFormed) (fuel : Nat) (w : Writer)
    (left : List Nat) (begin : Bool) (hbo : w.block_offset_ ≤ kBlockSize)
    (hfit : startOffset w.block_offset_ + kHeaderSize + left.length ≤ kBlockSize) :
    AppendRecordLoop L (fuel + 1) w left begin = .ok { w with
      file_ := w.file_ ++ (padWrites w.block_offset_ ++
        [headerBytes L (fragmentType begin true) left, left])
      block_offset_ := startOffset w.block_offset_ + (kHeaderSize + left.length)
      emitted := w.emitted ++ [⟨fragmentType begin true, left, startOffset w.block_offset_⟩] } := by
  have hs := startOffset_le hbo
  have ha : sizeSub (sizeSub kBlockSize (startOffset w.block_offset_)) kHeaderSize
      = kBlockSize - startOffset w.block_offset_ - kHeaderSize := by
    rw [sizeSub_eq (by omega) (Nat.le_refl _), sizeSub_eq (by omega) (by omega)]
  have hn : (if left.length < kBlockSize - startOffset w.block_offset_ - kHeaderSize
      then left.length else kBlockSize - startOffset w.block_offset_ - kHeaderSize)
      = left.length := by
    split <;> omega
  have h65 : left.length < 65535 := by
    have : kBlockSize = 32768 := rfl
    omega
  have hE := EmitPhysicalRecord_ok hL
    { w with file_ := w.file_ ++ padWrites w.block_offset_,
             block_offset_ := startOffset w.block_offset_ }
    (fragmentType begin true) left h65 hfit
  rw [AppendRecordLoop]
  simp only [padBlock_eq w hbo, ha, hn, List.take_length, List.drop_length,
    beq_self_eq_true, hE]
  simp [Except.bind]

/-- Any other iteration fills the block and continues with the rest. -/
theorem AppendRecordLoop_more {L : LogRecordLayout} (hL : L.WellFormed) (fuel : Nat) (w : Writer)
    (left : List Nat) (begin : Bool) (hbo : w.block_offset_ ≤ kBlockSize)
    (hmore : kBlockSize < startOffset w.block_offset_ + kHeaderSize + left.length) :
    AppendRecordLoop L (fuel + 1) w left begin =
      AppendRecordLoop L fuel { w with
        file_ := w.file_ ++ (padWrites w.block_offset_ ++
          [headerBytes L (fragmentType begin false)
            (left.take (kBlockSize - startOffset w.block_offset_ - kHeaderSize)),
           left.take (kBlockSize - startOffset w.block_offset_ - kHeaderSize)])
        block_offset_ := kBlockSize
        emitted := w.emitted ++ [⟨fragmentType begin false,
          left.take (kBlockSize - startOffset w.block_offset_ - kHeaderSize),
          startOffset w.block_offset_⟩] }
        (left.drop (kBlockSize - startOffset w.block_offset_ - kHeaderSize)) false := by
  have hs := startOffset_le hbo
  have ha : sizeSub (sizeSub kBlockSize (startOffset w.block_offset_)) kHeaderSize
      = kBlockSize - startOffset w.block_offset_ - kHeaderSize := by
    rw [sizeSub_eq (by omega) (Nat.le_refl _), sizeSub_eq (by omega) (by omega)]
  have hn : (if left.length < kBlockSize - startOffset w.block_offset_ - kHeaderSize
      then left.length else kBlockSize - startOffset w.block_offset_ - kHeaderSize)
      = kBlockSize - startOffset w.block_offset_ - kHeaderSize := by
    split <;> omega
  have hlen : (left.take (kBlockSize - startOffset w.block_offset_ - kHeaderSize)).length
      = kBlockSize - startOffset w.block_offset_ - kHeaderSize := by
    rw [List.length_take]; omega
  have hne : (left.length == kBlockSize - startOffset w.block_offset_ - kHeaderSize) = false := by
    rw [beq_eq_false_iff_ne]; omega
  have h65 : (left.take (kBlockSize - startOffset w.block_offset_ - kHeaderSize)).length
      < 65535 := by
    have : kBlockSize = 32768 := rfl
    omega
  have hfit : startOffset w.block_offset_ + kHeaderSize +
      (left.take (kBlockSize - startOffset w.block_offset_ - kHeaderSize)).length
      ≤ kBlockSize := by
    rw [hlen]; omega
  have hE := EmitPhysicalRecord_ok hL
    { w with file_ := w.file_ ++ padWrites w.block_offset_,
             block_offset_ := startOffset w.block_offset_ }
    (fragmentType begin false)
    (left.take (kBlockSize - startOffset w.block_offset_ - kHeaderSize)) h65 hfit
  rw [AppendRecordLoop]
  have hdrop : (left.drop (kBlockSize - startOffset w.block_offset_ - kHeaderSize)).length > 0 := by
    rw [List.length_drop]; omega
  simp only [padBlock_eq w hbo, ha, hn, hne]
  rw [hE, bind_ok, if_pos hdrop]
  simp only [hlen, List.append_assoc]
  have hB : startOffset w.block_offset_ +
      (kHeaderSize + (kBlockSize - startOffset w.block_offset_ - kHeaderSize)) = kBlockSize := by
    omega
  rw [hB]

/-! ## The fragmenting loop as a whole -/

theorem startOffset_cases (bo : Nat) :
    (startOffset bo = 0 ∧ kBlockSize - bo < kHeaderSize) ∨
      (startOffset bo = bo ∧ kHeaderSize ≤ kBlockSize - bo) := by
  unfold startOffset
  split
  · left; exact ⟨rfl, by assumption⟩
  · right; exact ⟨rfl, by omega⟩

theorem kBlockSize_eq : kBlockSize = 32768 := rfl

theorem kHeaderSize_eq : kHeaderSize = 7 := rfl

/-- What one run of the loop does: it returns, having emitted a chain of
fragments whose payloads concatenate to the bytes it was given and whose types
form `FULL` or `FIRST MIDDLE* LAST` (`MIDDLE* LAST` when entered with
`begin = false`); nothing but `file_`, `block_offset_` and the ghost log
changes. -/
theorem AppendRecordLoop_spec {L : LogRecordLayout} (hL : L.WellFormed) :
    ∀ (fuel : Nat) (w : Writer) (left : List Nat) (begin : Bool),
      w.block_offset_ ≤ kBlockSize →
      2 * left.length + (if w.block_offset_ = kBlockSize - kHeaderSize then 2 else 1) ≤ fuel →
      ∃ frs : List Fragment,
        AppendRecordLoop L fuel w left begin = .ok { w with
          file_ := w.file_ ++ fragWrites L w.block_offset_ frs
          block_offset_ := endOffset w.block_offset_ frs
          emitted := w.emitted ++ frs } ∧
        Chain w.block_offset_ frs ∧
        endOffset w.block_offset_ frs ≤ kBlockSize ∧
        (frs.map Fragment.payload).flatten = left ∧
        (begin = true → RecordShape (frs.map Fragment.type)) ∧
        (begin = false → TailShape (frs.map Fragment.type)) ∧
        frs ≠ [] := by
  intro fuel
  induction fuel with
  | zero =>
    intro w left begin _ hf
    exfalso
    split at hf <;> omega
  | succ fuel ih =>
    intro w left begin hbo hf
    have hs := startOffset_le hbo
    by_cases hfit : startOffset w.block_offset_ + kHeaderSize + left.length ≤ kBlockSize
    · refine ⟨[⟨fragmentType begin true, left, startOffset w.block_offset_⟩], ?_, ?_, ?_, ?_, ?_, ?_, ?_⟩
      · rw [AppendRecordLoop_last hL fuel w left begin hbo hfit]
        simp only [fragWrites, endOffset, List.append_nil, List.append_assoc, Nat.add_assoc]
      · exact ⟨rfl, hfit, trivial⟩
      · simp only [endOffset]; exact hfit
      · simp
      · intro hb; subst hb; left; rfl
      · intro hb; subst hb; exact ⟨0, rfl⟩
      · simp
    · have hmore : kBlockSize < startOffset w.block_offset_ + kHeaderSize + left.length := by omega
      have hk : startOffset w.block_offset_ + kHeaderSize +
          (left.take (kBlockSize - startOffset w.block_offset_ - kHeaderSize)).length
          = kBlockSize := by
        rw [List.length_take]; omega
      have hfuel : 2 * (left.drop (kBlockSize - startOffset w.block_offset_ - kHeaderSize)).length +
          (if kBlockSize = kBlockSize - kHeaderSize then 2 else 1) ≤ fuel := by
        rw [List.length_drop, if_neg (by rw [kBlockSize_eq, kHeaderSize_eq]; omega)]
        rcases startOffset_cases w.block_offset_ with ⟨h0, h1⟩ | ⟨h0, h1⟩
        · rw [h0] at hmore ⊢
          rw [if_neg (by rw [kBlockSize_eq, kHeaderSize_eq] at *; omega)] at hf
          rw [kBlockSize_eq, kHeaderSize_eq] at *
          omega
        · rw [h0] at hmore ⊢
          split at hf <;> rw [kBlockSize_eq, kHeaderSize_eq] at * <;> omega
      obtain ⟨frs, h1, h2, h3, h4, _, h6, _⟩ := ih
        { w with
          file_ := w.file_ ++ (padWrites w.block_offset_ ++
            [headerBytes L (fragmentType begin false)
              (left.take (kBlockSize - startOffset w.block_offset_ - kHeaderSize)),
             left.take (kBlockSize - startOffset w.block_offset_ - kHeaderSize)])
          block_offset_ := kBlockSize
          emitted := w.emitted ++ [⟨fragmentType begin false,
            left.take (kBlockSize - startOffset w.block_offset_ - kHeaderSize),
            startOffset w.block_offset_⟩] }
        (left.drop (kBlockSize - startOffset w.block_offset_ - kHeaderSize)) false
        (Nat.le_refl _) hfuel
      refine ⟨⟨fragmentType begin false,
            left.take (kBlockSize - startOffset w.block_offset_ - kHeaderSize),
            startOffset w.block_offset_⟩ :: frs, ?_, ?_, ?_, ?_, ?_, ?_, ?_⟩
      · rw [AppendRecordLoop_more hL fuel w left begin hbo hmore, h1]
        simp only [fragWrites, endOffset, hk, List.append_assoc, List.cons_append,
          List.nil_append]
      · exact ⟨rfl, by rw [hk], by rw [hk]; exact h2⟩
      · simp only [endOffset, hk]; exact h3
      · simp only [List.map_cons, List.flatten_cons, h4, List.take_append_drop]
      · intro hb
        subst hb
        obtain ⟨n, hn⟩ := h6 rfl
        right
        exact ⟨n, by simp only [List.map_cons, hn]; rfl⟩
      · intro hb
        subst hb
        obtain ⟨n, hn⟩ := h6 rfl
        exact ⟨n + 1, by simp only [List.map_cons, hn, List.replicate_succ]; rfl⟩
      · simp

/-! ## `AppendRecord` -/

theorem AppendRecord_spec {L : LogRecordLayout} (hL : L.WellFormed) (w : Writer) (data : List Nat)
    (hbo : w.block_offset_ ≤ kBlockSize) :
    ∃ frs : List Fragment,
      AppendRecord L w data = .ok { w with
        file_ := w.file_ ++ fragWrites L w.block_offset_ frs
        block_offset_ := endOffset w.block_offset_ frs
        emitted := w.emitted ++ frs } ∧
      Chain w.block_offset_ frs ∧
      endOffset w.block_offset_ frs ≤ kBlockSize ∧
      (frs.map Fragment.payload).flatten = data ∧
      RecordShape (frs.map Fragment.type) ∧
      frs ≠ [] := by
  obtain ⟨frs, h1, h2, h3, h4, h5, _, h7⟩ :=
    AppendRecordLoop_spec hL (2 * data.length + 2) w data true hbo (by split <;> omega)
  refine ⟨frs, ?_, h2, h3, h4, h5 rfl, h7⟩
  unfold AppendRecord
  rw [if_neg (by omega), h1]

theorem Chain_fits : ∀ (frs : List Fragment) (bo : Nat), Chain bo frs →
    ∀ f ∈ frs, f.offset + kHeaderSize + f.payload.length ≤ kBlockSize := by
  intro frs
  induction frs with
  | nil => intro bo _ f hf; simp at hf
  | cons g gs ih =>
    intro bo h f hf
    obtain ⟨_, h2, h3⟩ := h
    rcases List.mem_cons.mp hf with rfl | hf
    · exact h2
    · exact ih _ h3 f hf

/-! ## The reference reader on the writes of the writer -/

theorem ofByte_toByte (t : RecordType) (h : t ≠ RecordType.kZeroType) :
    RecordType.ofByte t.toByte = some t := by
  cases t <;> first | exact absurd rfl h | rfl

theorem parseFragments_nil (L : LogRecordLayout) (fuel pos : Nat) :
    parseFragments L (fuel + 1) pos [] = some [] := by
  rw [parseFragments]
  rfl

/-- Reader step over a block trailer shorter than a header. -/
theorem parseFragments_skip (L : LogRecordLayout) (fuel pos : Nat) (bs : List Nat)
    (hne : bs ≠ []) (hlt : kBlockSize - pos % kBlockSize < kHeaderSize) :
    parseFragments L (fuel + 1) pos bs =
      parseFragments L fuel (pos + (kBlockSize - pos % kBlockSize))
        (bs.drop (kBlockSize - pos % kBlockSize)) := by
  rw [parseFragments]
  simp only []
  rw [if_neg hne, if_pos hlt]

/-- Reader step over one fragment written by the writer. -/
theorem parseFragments_fragment {L : LogRecordLayout} (hL : L.WellFormed) (fuel pos : Nat)
    (t : RecordType) (p rest : List Nat) (ht : t ≠ RecordType.kZeroType)
    (hfit : kHeaderSize + p.length ≤ kBlockSize - pos % kBlockSize) :
    parseFragments L (fuel + 1) pos (headerBytes L t p ++ (p ++ rest)) =
      (parseFragments L fuel (pos + (kHeaderSize + p.length)) rest).map
        (fun fs => (t, p) :: fs) := by
  have hlen := headerBytes_length L t p
  have hp : p.length % 65536 = p.length := by
    rw [kBlockSize_eq, kHeaderSize_eq] at hfit
    omega
  have htake : (headerBytes L t p ++ (p ++ rest)).take kHeaderSize = headerBytes L t p := by
    rw [← hlen, List.take_left']
    rfl
  have hdrop : (headerBytes L t p ++ (p ++ rest)).drop kHeaderSize = p ++ rest := by
    rw [← hlen, List.drop_left']
    rfl
  have hdrop2 : (headerBytes L t p ++ (p ++ rest)).drop (kHeaderSize + p.length) = rest := by
    rw [← List.drop_drop, hdrop, List.drop_left']
    rfl
  have htake2 : (p ++ rest).take p.length = p := by
    rw [List.take_left']
    rfl
  rw [parseFragments]
  simp only [htake, hdrop, headerSize_headerBytes hL, headerType_headerBytes hL, hp, hdrop2,
    htake2, ofByte_toByte t ht, Option.some_bind, headerChecksum_headerBytes hL,
    headerBody_headerBytes hL]
  rw [if_neg (by intro h; have := congrArg List.length h; simp [hlen, kHeaderSize_eq] at this),
    if_neg (by omega), if_neg (by simp [hlen]), if_neg (by omega),
    if_neg (by simp [hlen]), if_neg (by simp)]

theorem padWrites_flatten_length (bo : Nat) (h : kBlockSize - bo < kHeaderSize) :
    (padWrites bo).flatten.length = kBlockSize - bo := by
  unfold padWrites
  by_cases h0 : 0 < kBlockSize - bo
  · rw [if_pos ⟨h, h0⟩]
    simp [kBlockPadding]
  · rw [if_neg (by intro hh; exact h0 hh.2)]
    simp
    omega

theorem padWrites_of_room (bo : Nat) (h : kHeaderSize ≤ kBlockSize - bo) : padWrites bo = [] := by
  unfold padWrites
  rw [if_neg (by intro hh; omega)]

/-- The reader over the writes of one loop iteration (padding, header,
payload): it reports the fragment and continues behind it, at a position that
is congruent to the block offset the iteration leaves. -/
theorem parseFragments_iteration {L : LogRecordLayout} (hL : L.WellFormed) (f : Fragment)
    (bo pos fuel : Nat) (rest : List Nat) (hbo : bo ≤ kBlockSize)
    (hpos : pos % kBlockSize = bo % kBlockSize) (hoff : f.offset = startOffset bo)
    (hfit : f.offset + kHeaderSize + f.payload.length ≤ kBlockSize)
    (ht : f.type ≠ RecordType.kZeroType)
    (hfuel : ((padWrites bo ++ [headerBytes L f.type f.payload, f.payload]).flatten
      ++ rest).length < fuel) :
    ∃ fuel' pos', rest.length < fuel' ∧
      pos' % kBlockSize = (f.offset + kHeaderSize + f.payload.length) % kBlockSize ∧
      parseFragments L fuel pos
          ((padWrites bo ++ [headerBytes L f.type f.payload, f.payload]).flatten ++ rest) =
        (parseFragments L fuel' pos' rest).map (fun fs => (f.type, f.payload) :: fs) := by
  have hlen := headerBytes_length L f.type f.payload
  have hflat : (padWrites bo ++ [headerBytes L f.type f.payload, f.payload]).flatten ++ rest =
      (padWrites bo).flatten ++ (headerBytes L f.type f.payload ++ (f.payload ++ rest)) := by
    simp
  rw [hflat] at hfuel ⊢
  simp only [List.length_append, hlen] at hfuel
  rcases startOffset_cases bo with ⟨h0, h1⟩ | ⟨h0, h1⟩
  · -- fewer than seven bytes are left in the block
    rw [h0] at hoff
    have hpl := padWrites_flatten_length bo h1
    by_cases hz : kBlockSize - bo = 0
    · -- the block is exactly full: no padding
      have hnil : (padWrites bo).flatten = [] := List.eq_nil_of_length_eq_zero (by omega)
      rw [hnil, List.nil_append]
      have hposz : pos % kBlockSize = 0 := by
        rw [hpos]; rw [kBlockSize_eq] at *; omega
      obtain ⟨k, rfl⟩ : ∃ k, fuel = k + 1 := ⟨fuel - 1, by omega⟩
      refine ⟨k, pos + (kHeaderSize + f.payload.length), by omega, ?_, ?_⟩
      · rw [kBlockSize_eq, kHeaderSize_eq] at *; omega
      · exact parseFragments_fragment hL k pos f.type f.payload rest ht
          (by rw [hposz]; omega)
    · -- padding is skipped first
      have hpm : pos % kBlockSize = bo := by
        rw [hpos]; rw [kBlockSize_eq] at *; omega
      obtain ⟨k, rfl⟩ : ∃ k, fuel = k + 2 := ⟨fuel - 2, by rw [kHeaderSize_eq] at *; omega⟩
      refine ⟨k, pos + (kBlockSize - bo) + (kHeaderSize + f.payload.length),
        by rw [kHeaderSize_eq] at *; omega, ?_, ?_⟩
      · rw [kBlockSize_eq, kHeaderSize_eq] at *; omega
      · rw [parseFragments_skip L (k + 1) pos _
          (List.ne_nil_of_length_pos (by rw [List.length_append]; omega))
          (by rw [hpm]; exact h1)]
        rw [hpm, ← hpl, List.drop_left']
        · exact parseFragments_fragment hL k _ f.type f.payload rest ht
            (by rw [hpl]; rw [kBlockSize_eq, kHeaderSize_eq] at *; omega)
        · rfl
  · -- the fragment starts where the previous one ended
    rw [h0] at hoff
    rw [padWrites_of_room bo h1] at hfuel ⊢
    simp only [List.flatten_nil, List.nil_append, List.length_nil] at hfuel ⊢
    have hpm : pos % kBlockSize = bo := by
      rw [hpos]; rw [kBlockSize_eq, kHeaderSize_eq] at *; omega
    obtain ⟨k, rfl⟩ : ∃ k, fuel = k + 1 := ⟨fuel - 1, by omega⟩
    refine ⟨k, pos + (kHeaderSize + f.payload.length),
      by rw [kHeaderSize_eq] at *; omega, ?_, ?_⟩
    · rw [kBlockSize_eq, kHeaderSize_eq] at *; omega
    · exact parseFragments_fragment hL k pos f.type f.payload rest ht
        (by rw [hpm]; omega)

/-- The reader over the writes of a whole chain of fragments. -/
theorem parseFragments_chain {L : LogRecordLayout} (hL : L.WellFormed) :
    ∀ (frs : List Fragment) (bo pos fuel : Nat) (rest : List Nat),
      bo ≤ kBlockSize → pos % kBlockSize = bo % kBlockSize → Chain bo frs →
      (∀ f ∈ frs, f.type ≠ RecordType.kZeroType) →
      ((fragWrites L bo frs).flatten ++ rest).length < fuel →
      ∃ fuel' pos', rest.length < fuel' ∧
        pos' % kBlockSize = endOffset bo frs % kBlockSize ∧
        parseFragments L fuel pos ((fragWrites L bo frs).flatten ++ rest) =
          (parseFragments L fuel' pos' rest).map (fun fs => asRead frs ++ fs) := by
  intro frs
  induction frs with
  | nil =>
    intro bo pos fuel rest _ hpos _ _ hfuel
    refine ⟨fuel, pos, by simpa [fragWrites] using hfuel, hpos, ?_⟩
    simp [fragWrites, asRead, endOffset]
  | cons f fs ih =>
    intro bo pos fuel rest hbo hpos hch hty hfuel
    obtain ⟨hoff, hfit, hch'⟩ := hch
    have hsplit : (fragWrites L bo (f :: fs)).flatten ++ rest =
        (padWrites bo ++ [headerBytes L f.type f.payload, f.payload]).flatten ++
          ((fragWrites L (f.offset + kHeaderSize + f.payload.length) fs).flatten ++ rest) := by
      simp [fragWrites]
    rw [hsplit] at hfuel ⊢
    obtain ⟨fuel1, pos1, hf1, hp1, he1⟩ :=
      parseFragments_iteration hL f bo pos fuel _ hbo hpos hoff hfit
        (hty f (List.mem_cons_self _ _)) hfuel
    obtain ⟨fuel2, pos2, hf2, hp2, he2⟩ :=
      ih (f.offset + kHeaderSize + f.payload.length) pos1 fuel1 rest hfit hp1 hch'
        (fun g hg => hty g (List.mem_cons_of_mem _ hg)) hf1
    refine ⟨fuel2, pos2, hf2, by simpa [endOffset] using hp2, ?_⟩
    rw [he1, he2, Option.map_map]
    rfl

/-! ## Assembly of logical records -/

theorem assemble_tail : ∀ (frs : List (RecordType × List Nat)) (acc : List Nat)
    (rest : List (RecordType × List Nat)), TailShape (frs.map Prod.fst) →
    assemble (some acc) (frs ++ rest) =
      (assemble none rest).map (fun rs => (acc ++ (frs.map Prod.snd).flatten) :: rs) := by
  intro frs
  induction frs with
  | nil =>
    intro acc rest h
    obtain ⟨n, hn⟩ := h
    simp at hn
  | cons g gs ih =>
    intro acc rest h
    obtain ⟨n, hn⟩ := h
    obtain ⟨t, p⟩ := g
    cases n with
    | zero =>
      simp only [List.map_cons, List.replicate_zero, List.nil_append, List.cons.injEq,
        List.map_eq_nil_iff] at hn
      obtain ⟨rfl, rfl⟩ := hn
      simp [assemble]
    | succ n =>
      simp only [List.map_cons, List.replicate_succ, List.cons_append, List.cons.injEq] at hn
      obtain ⟨rfl, hn⟩ := hn
      have := ih (acc ++ p) rest ⟨n, hn⟩
      simp only [List.cons_append, assemble, List.map_cons, List.flatten_cons]
      show assemble (some (acc ++ p)) (gs ++ rest) = _
      rw [this]
      simp only [List.append_assoc]

theorem assemble_record (frs : List (RecordType × List Nat))
    (rest : List (RecordType × List Nat)) (h : RecordShape (frs.map Prod.fst)) :
    assemble none (frs ++ rest) =
      (assemble none rest).map (fun rs => (frs.map Prod.snd).flatten :: rs) := by
  rcases h with h | ⟨n, hn⟩
  · match frs, h with
    | [(t, p)], h =>
      simp only [List.map_cons, List.map_nil, List.cons.injEq, and_true] at h
      subst h
      simp [assemble]
  · match frs, hn with
    | (t, p) :: gs, hn =>
      simp only [List.map_cons, List.cons.injEq] at hn
      obtain ⟨rfl, hn⟩ := hn
      have := assemble_tail gs p rest ⟨n, hn⟩
      simp only [List.cons_append, assemble, List.map_cons, List.flatten_cons]
      exact this

theorem RecordShape_ne_zero {frs : List Fragment} (h : RecordShape (frs.map Fragment.type)) :
    ∀ f ∈ frs, f.type ≠ RecordType.kZeroType := by
  intro f hf hz
  have hmem : RecordType.kZeroType ∈ frs.map Fragment.type :=
    List.mem_map.mpr ⟨f, hf, hz⟩
  rcases h with h | ⟨n, hn⟩
  · rw [h] at hmem
    simp at hmem
  · rw [hn] at hmem
    simp at hmem

/-! ## The buffered path -/

theorem FlushBuffer_of_empty (w : Writer) (h : w.rep_ = []) : FlushBuffer w = w := by
  unfold FlushBuffer
  rw [h, if_neg (by simp)]

theorem FlushBuffer_of_nonempty (w : Writer) (h : w.rep_ ≠ []) :
    FlushBuffer w = { w with file_ := w.file_ ++ [w.rep_], rep_ := [] } := by
  unfold FlushBuffer
  rw [if_pos (List.length_pos.mpr h)]

/-- The buffered fast path: the record fits into the current block. -/
theorem AppendRecordToBuffer_fast {L : LogRecordLayout} (hL : L.WellFormed) (w : Writer)
    (data : List Nat) (h : w.block_offset_ + kHeaderSize + data.length ≤ kBlockSize) :
    AppendRecordToBuffer L w data = .ok { w with
      size_ := w.size_ + (kHeaderSize + data.length)
      rep_ := w.rep_ ++ headerBytes L RecordType.kFullType data ++ data
      block_offset_ := w.block_offset_ + (kHeaderSize + data.length) } := by
  unfold AppendRecordToBuffer
  simp only []
  rw [if_neg (by omega), fillHeader_wellFormed hL]

/-- The buffered overflow path: flush, then the direct path. -/
theorem AppendRecordToBuffer_overflow (L : LogRecordLayout) (w : Writer) (data : List Nat)
    (h : kBlockSize < w.block_offset_ + kHeaderSize + data.length) :
    AppendRecordToBuffer L w data =
      AppendRecord L
        (FlushBuffer { w with size_ := w.size_ + (kHeaderSize + data.length) }) data := by
  unfold AppendRecordToBuffer
  simp only []
  rw [if_pos (by omega)]

/-! ## Round trip -/

theorem contents_append (w : Writer) (ws : List (List Nat)) :
    ({ w with file_ := w.file_ ++ ws } : Writer).contents = w.contents ++ ws.flatten := by
  simp [Writer.contents]

theorem run_cons (L : LogRecordLayout) (w : Writer) (op : Op) (ops : List Op) :
    run L w (op :: ops) = (step L w op).bind fun w1 => run L w1 ops := by
  rw [run]

/-- One record of a script: the writer ends with an empty buffer, and the file
has grown by the writes of a chain of fragments that forms one logical record
with the payload of the record. -/
theorem record_written {L : LogRecordLayout} (hL : L.WellFormed) (w : Writer)
    (r : Bool × List Nat) (recs : List (Bool × List Nat)) (hrep : w.rep_ = [])
    (hbo : w.block_offset_ ≤ kBlockSize) :
    ∃ (w1 : Writer) (frs : List Fragment),
      run L w (script (r :: recs)) = run L w1 (script recs) ∧
      w1.rep_ = [] ∧ w1.block_offset_ = endOffset w.block_offset_ frs ∧
      w1.block_offset_ ≤ kBlockSize ∧
      w1.contents = w.contents ++ (fragWrites L w.block_offset_ frs).flatten ∧
      Chain w.block_offset_ frs ∧ RecordShape (frs.map Fragment.type) ∧
      (frs.map Fragment.payload).flatten = r.2 := by
  obtain ⟨b, data⟩ := r
  cases b with
  | false =>
    obtain ⟨frs, h1, h2, h3, h4, h5, _⟩ := AppendRecord_spec hL w data hbo
    refine ⟨{ w with
        file_ := w.file_ ++ fragWrites L w.block_offset_ frs
        block_offset_ := endOffset w.block_offset_ frs
        emitted := w.emitted ++ frs }, frs, ?_, hrep, rfl, h3, ?_, h2, h5, h4⟩
    · rw [script, run_cons, step, h1, bind_ok]
    · simp [Writer.contents]
  | true =>
    by_cases hfit : w.block_offset_ + kHeaderSize + data.length ≤ kBlockSize
    · -- fast path, then the flush writes the buffer
      have hne : headerBytes L RecordType.kFullType data ++ data ≠ [] :=
        List.ne_nil_of_length_pos (by
          rw [List.length_append, headerBytes_length, kHeaderSize_eq]; omega)
      refine ⟨{ w with
          size_ := w.size_ + (kHeaderSize + data.length)
          file_ := w.file_ ++ [headerBytes L RecordType.kFullType data ++ data]
          block_offset_ := w.block_offset_ + (kHeaderSize + data.length) },
        [⟨RecordType.kFullType, data, w.block_offset_⟩], ?_, hrep, ?_, ?_, ?_, ?_, ?_, ?_⟩
      · rw [script, run_cons, step, AppendRecordToBuffer_fast hL w data hfit, bind_ok,
          run_cons, step, bind_ok, FlushBuffer_of_nonempty _ (by simpa [hrep] using hne)]
        simp only [hrep, List.nil_append]
      · simp only [endOffset]
        omega
      · simp only []
        omega
      · simp [Writer.contents, fragWrites,
          padWrites_of_room w.block_offset_ (by omega)]
      · refine ⟨?_, hfit, trivial⟩
        rcases startOffset_cases w.block_offset_ with ⟨_, h1⟩ | ⟨h0, _⟩
        · omega
        · exact h0.symm
      · left; rfl
      · simp
    · -- overflow path: nothing is buffered, the record is written directly
      have hflush : FlushBuffer { w with size_ := w.size_ + (kHeaderSize + data.length) } =
          { w with size_ := w.size_ + (kHeaderSize + data.length) } :=
        FlushBuffer_of_empty _ hrep
      obtain ⟨frs, h1, h2, h3, h4, h5, _⟩ := AppendRecord_spec hL
        { w with size_ := w.size_ + (kHeaderSize + data.length) } data hbo
      refine ⟨{ w with
          size_ := w.size_ + (kHeaderSize + data.length)
          file_ := w.file_ ++ fragWrites L w.block_offset_ frs
          block_offset_ := endOffset w.block_offset_ frs
          emitted := w.emitted ++ frs }, frs, ?_, hrep, rfl, h3, ?_, h2, h5, h4⟩
      · rw [script, run_cons, step, AppendRecordToBuffer_overflow L w data (by omega), hflush,
          h1, bind_ok, run_cons, step, bind_ok, FlushBuffer_of_empty _ (by exact hrep)]
      · simp [Writer.contents]

/-- Round trip from any state with an empty buffer: the reader, started at a
position congruent to `block_offset_`, recovers the records from the bytes the
script adds to the file. -/
theorem script_roundtrip {L : LogRecordLayout} (hL : L.WellFormed) :
    ∀ (recs : List (Bool × List Nat)) (w : Writer), w.rep_ = [] →
      w.block_offset_ ≤ kBlockSize →
      ∃ (w' : Writer) (added : List Nat),
        run L w (script recs) = .ok w' ∧ w'.contents = w.contents ++ added ∧
        ∀ pos fuel, pos % kBlockSize = w.block_offset_ % kBlockSize → added.length < fuel →
          ∃ frs, parseFragments L fuel pos added = some frs ∧
            assemble none frs = some (recs.map Prod.snd) := by
  intro recs
  induction recs with
  | nil =>
    intro w _ _
    refine ⟨w, [], rfl, by simp, ?_⟩
    intro pos fuel _ hfuel
    obtain ⟨k, rfl⟩ : ∃ k, fuel = k + 1 := ⟨fuel - 1, by simp at hfuel; omega⟩
    exact ⟨[], parseFragments_nil L k pos, rfl⟩
  | cons r recs ih =>
    intro w hrep hbo
    obtain ⟨w1, frs, h1, h2, h3, h4, h5, h6, h7, h8⟩ := record_written hL w r recs hrep hbo
    obtain ⟨w', added, g1, g2, g3⟩ := ih w1 h2 h4
    refine ⟨w', (fragWrites L w.block_offset_ frs).flatten ++ added, ?_, ?_, ?_⟩
    · rw [h1, g1]
    · rw [g2, h5, List.append_assoc]
    · intro pos fuel hpos hfuel
      obtain ⟨fuel1, pos1, k1, k2, k3⟩ :=
        parseFragments_chain hL frs w.block_offset_ pos fuel added hbo hpos h6
          (RecordShape_ne_zero h7) hfuel
      obtain ⟨frs2, m1, m2⟩ := g3 pos1 fuel1 (by rw [k2, h3]) k1
      refine ⟨asRead frs ++ frs2, by rw [k3, m1]; rfl, ?_⟩
      have hfst : (asRead frs).map Prod.fst = frs.map Fragment.type := by
        simp [asRead]
      have hsnd : (asRead frs).map Prod.snd = frs.map Fragment.payload := by
        simp [asRead]
      rw [assemble_record (asRead frs) frs2 (by rw [hfst]; exact h7), m2, hsnd, h8]
      rfl

/-! ## Further facts about the direct path -/

theorem EmitPhysicalRecord_wellFormed {L : LogRecordLayout} {w w' : Writer} {t : RecordType}
    {p : List Nat} (h : EmitPhysicalRecord L w t p = .ok w') : L.WellFormed := by
  unfold EmitPhysicalRecord at h
  split at h
  · cases h
  · split at h
    · cases h
    · split at h
      · cases h
      · next buf hbuf => exact fillHeader_defined hbuf

theorem AppendRecord_wellFormed {L : LogRecordLayout} {w w' : Writer} {data : List Nat}
    (h : AppendRecord L w data = .ok w') : L.WellFormed := by
  unfold AppendRecord at h
  split at h
  · cases h
  · rw [AppendRecordLoop] at h
    generalize hE : EmitPhysicalRecord L _ _ _ = r at h
    cases r with
    | error e => rw [bind_error] at h; cases h
    | ok w2 => exact EmitPhysicalRecord_wellFormed hE

/-- The value of `size_` does not influence the loop; it is carried along. -/
theorem AppendRecordLoop_size {L : LogRecordLayout} (hL : L.WellFormed) (s : Nat) :
    ∀ (fuel : Nat) (w : Writer) (left : List Nat) (begin : Bool),
      w.block_offset_ ≤ kBlockSize →
      AppendRecordLoop L fuel { w with size_ := s } left begin =
        (AppendRecordLoop L fuel w left begin).map (fun w' => { w' with size_ := s }) := by
  intro fuel
  induction fuel with
  | zero =>
    intro w left begin _
    rw [AppendRecordLoop, AppendRecordLoop]
    rfl
  | succ fuel ih =>
    intro w left begin hbo
    by_cases hfit : startOffset w.block_offset_ + kHeaderSize + left.length ≤ kBlockSize
    · rw [AppendRecordLoop_last hL fuel w left begin hbo hfit,
        AppendRecordLoop_last hL fuel { w with size_ := s } left begin hbo hfit]
      rfl
    · have hmore : kBlockSize < startOffset w.block_offset_ + kHeaderSize + left.length := by
        omega
      rw [AppendRecordLoop_more hL fuel w left begin hbo hmore,
        AppendRecordLoop_more hL fuel { w with size_ := s } left begin hbo hmore]
      exact ih { w with
          file_ := w.file_ ++ (padWrites w.block_offset_ ++
            [headerBytes L (fragmentType begin false)
              (left.take (kBlockSize - startOffset w.block_offset_ - kHeaderSize)),
             left.take (kBlockSize - startOffset w.block_offset_ - kHeaderSize)])
          block_offset_ := kBlockSize
          emitted := w.emitted ++ [⟨fragmentType begin false,
            left.take (kBlockSize - startOffset w.block_offset_ - kHeaderSize),
            startOffset w.block_offset_⟩] } _ _ (Nat.le_refl _)

theorem AppendRecord_size {L : LogRecordLayout} (hL : L.WellFormed) (s : Nat) (w : Writer)
    (data : List Nat) (hbo : w.block_offset_ ≤ kBlockSize) :
    AppendRecord L { w with size_ := s } data =
      (AppendRecord L w data).map (fun w' => { w' with size_ := s }) := by
  unfold AppendRecord
  rw [if_neg (by simpa using hbo), if_neg (by simpa using hbo)]
  exact AppendRecordLoop_size hL s _ w data true hbo

theorem FlushBuffer_size (s : Nat) (w : Writer) :
    FlushBuffer { w with size_ := s } = { FlushBuffer w with size_ := s } := by
  unfold FlushBuffer
  split <;> rfl

theorem FlushBuffer_rep (w : Writer) : (FlushBuffer w).rep_ = [] := by
  unfold FlushBuffer
  split
  · rfl
  · next h => exact List.eq_nil_of_length_eq_zero (by omega)

theorem FlushBuffer_block_offset (w : Writer) :
    (FlushBuffer w).block_offset_ = w.block_offset_ := by
  unfold FlushBuffer
  split <;> rfl

theorem startOffset_zero : startOffset 0 = 0 := by decide

theorem startOffset_full : startOffset kBlockSize = 0 := by decide

theorem padWrites_zero : padWrites 0 = [] := by decide

theorem padWrites_full : padWrites kBlockSize = [] := by decide

/-! ## Accounting of bytes and offsets over arbitrary call sequences -/

theorem padWrites_account (bo : Nat) (hbo : bo ≤ kBlockSize) :
    ((padWrites bo).flatten.length + bo) % kBlockSize = startOffset bo % kBlockSize := by
  rcases startOffset_cases bo with ⟨h0, h1⟩ | ⟨h0, h1⟩
  · rw [h0, padWrites_flatten_length bo h1]
    rw [kBlockSize_eq] at *
    omega
  · rw [h0, padWrites_of_room bo h1]
    simp

/-- The bytes a chain of fragments puts into the file advance the block offset
by the same amount, modulo the block size. -/
theorem fragWrites_account (L : LogRecordLayout) :
    ∀ (frs : List Fragment) (bo : Nat), bo ≤ kBlockSize → Chain bo frs →
      ((fragWrites L bo frs).flatten.length + bo) % kBlockSize =
        endOffset bo frs % kBlockSize := by
  intro frs
  induction frs with
  | nil =>
    intro bo _ _
    simp [fragWrites, endOffset]
  | cons f fs ih =>
    intro bo hbo hch
    obtain ⟨hoff, hfit, hch'⟩ := hch
    have h1 := padWrites_account bo hbo
    have h2 := ih (f.offset + kHeaderSize + f.payload.length) hfit hch'
    have hlen : (fragWrites L bo (f :: fs)).flatten.length =
        (padWrites bo).flatten.length + (kHeaderSize + f.payload.length) +
          (fragWrites L (f.offset + kHeaderSize + f.payload.length) fs).flatten.length := by
      simp [fragWrites, headerBytes_length]
      omega
    rw [hlen]
    simp only [endOffset]
    rw [← hoff] at h1
    rw [kBlockSize_eq, kHeaderSize_eq] at *
    omega

theorem FlushBuffer_total (w : Writer) :
    (FlushBuffer w).contents.length + (FlushBuffer w).rep_.length =
      w.contents.length + w.rep_.length := by
  by_cases h : w.rep_ = []
  · rw [FlushBuffer_of_empty w h]
  · rw [FlushBuffer_of_nonempty w h]
    simp [Writer.contents]

theorem FlushBuffer_size_eq (w : Writer) : (FlushBuffer w).size_ = w.size_ := by
  unfold FlushBuffer
  split <;> rfl

/-- What one call does to the counters: it returns, keeps
`block_offset_ ≤ kBlockSize`, adds `7 + |data|` to `size_` when it is an
`append_buffered` call and nothing otherwise, and advances `block_offset_`,
modulo the block size, by the number of bytes it adds to file and buffer. -/
theorem step_spec {L : LogRecordLayout} (hL : L.WellFormed) (w : Writer) (op : Op)
    (hbo : w.block_offset_ ≤ kBlockSize) :
    ∃ w' : Writer, step L w op = .ok w' ∧ w'.block_offset_ ≤ kBlockSize ∧
      w'.size_ = w.size_ + enqueuedSize [op] ∧
      (w'.contents.length + w'.rep_.length + w.block_offset_) % kBlockSize =
        (w.contents.length + w.rep_.length + w'.block_offset_) % kBlockSize := by
  cases op with
  | append data =>
    obtain ⟨frs, h1, h2, h3, _, _, _⟩ := AppendRecord_spec hL w data hbo
    refine ⟨_, h1, h3, rfl, ?_⟩
    have ha := fragWrites_account L frs w.block_offset_ hbo h2
    simp only [Writer.contents, List.flatten_append, List.length_append]
    simp only [Writer.contents] at ha ⊢
    rw [kBlockSize_eq] at *
    omega
  | append_buffered data =>
    by_cases hfit : w.block_offset_ + kHeaderSize + data.length ≤ kBlockSize
    · refine ⟨_, AppendRecordToBuffer_fast hL w data hfit, ?_, ?_, ?_⟩
      · simp only []; omega
      · simp [enqueuedSize]
      · simp only [Writer.contents, List.length_append, headerBytes_length]
        rw [kBlockSize_eq, kHeaderSize_eq] at *
        omega
    · have hb1 : (FlushBuffer w).block_offset_ ≤ kBlockSize := by
        rw [FlushBuffer_block_offset]; exact hbo
      obtain ⟨frs, h1, h2, h3, _, _, _⟩ := AppendRecord_spec hL (FlushBuffer w) data hb1
      have ha := fragWrites_account L frs (FlushBuffer w).block_offset_ hb1 h2
      have ht := FlushBuffer_total w
      have hb := FlushBuffer_block_offset w
      refine ⟨{ (FlushBuffer w) with
          size_ := w.size_ + (kHeaderSize + data.length)
          file_ := (FlushBuffer w).file_ ++ fragWrites L (FlushBuffer w).block_offset_ frs
          block_offset_ := endOffset (FlushBuffer w).block_offset_ frs
          emitted := (FlushBuffer w).emitted ++ frs }, ?_, h3, ?_, ?_⟩
      · show AppendRecordToBuffer L w data = _
        rw [AppendRecordToBuffer_overflow L w data (by omega), FlushBuffer_size,
          AppendRecord_size hL _ _ _ hb1, h1]
        rfl
      · simp [enqueuedSize]
      · simp only [Writer.contents, List.flatten_append, List.length_append] at ht ⊢
        rw [hb] at ha ⊢
        rw [kBlockSize_eq] at *
        omega
  | flush =>
    refine ⟨FlushBuffer w, rfl, ?_, ?_, ?_⟩
    · rw [FlushBuffer_block_offset]; exact hbo
    · rw [FlushBuffer_size_eq]; rfl
    · rw [FlushBuffer_total, FlushBuffer_block_offset]
  | sync =>
    exact ⟨w, rfl, hbo, rfl, rfl⟩

theorem enqueuedSize_cons (op : Op) (ops : List Op) :
    enqueuedSize (op :: ops) = enqueuedSize [op] + enqueuedSize ops := by
  cases op <;> simp [enqueuedSize]

/-- Every sequence of calls returns; the facts of `step_spec` accumulate. -/
theorem run_spec {L : LogRecordLayout} (hL : L.WellFormed) :
    ∀ (ops : List Op) (w : Writer), w.block_offset_ ≤ kBlockSize →
      ∃ w' : Writer, run L w ops = .ok w' ∧ w'.block_offset_ ≤ kBlockSize ∧
        w'.size_ = w.size_ + enqueuedSize ops ∧
        (w'.contents.length + w'.rep_.length + w.block_offset_) % kBlockSize =
          (w.contents.length + w.rep_.length + w'.block_offset_) % kBlockSize := by
  intro ops
  induction ops with
  | nil =>
    intro w hbo
    exact ⟨w, rfl, hbo, rfl, rfl⟩
  | cons op ops ih =>
    intro w hbo
    obtain ⟨w1, h1, h2, h3, h4⟩ := step_spec hL w op hbo
    obtain ⟨w2, g1, g2, g3, g4⟩ := ih w1 h2
    refine ⟨w2, ?_, g2, ?_, ?_⟩
    · rw [run_cons, h1, bind_ok, g1]
    · have := enqueuedSize_cons op ops
      omega
    · rw [kBlockSize_eq] at *
      omega

/-! ## Single-fragment and two-fragment appends -/

theorem padWrites_flatten (bo : Nat) (h : kBlockSize - bo < kHeaderSize) :
    (padWrites bo).flatten = List.replicate (kBlockSize - bo) 0 := by
  unfold padWrites
  by_cases h0 : 0 < kBlockSize - bo
  · rw [if_pos ⟨h, h0⟩]
    simp [kBlockPadding]
  · rw [if_neg (by intro hh; exact h0 hh.2)]
    have : kBlockSize - bo = 0 := by omega
    rw [this]
    rfl

/-- A record that fits behind the padding step is emitted as one `FULL`
fragment. -/
theorem AppendRecord_single {L : LogRecordLayout} (hL : L.WellFormed) (w : Writer)
    (data : List Nat) (hbo : w.block_offset_ ≤ kBlockSize)
    (hfit : startOffset w.block_offset_ + kHeaderSize + data.length ≤ kBlockSize) :
    AppendRecord L w data = .ok { w with
      file_ := w.file_ ++ (padWrites w.block_offset_ ++
        [headerBytes L RecordType.kFullType data, data])
      block_offset_ := startOffset w.block_offset_ + (kHeaderSize + data.length)
      emitted := w.emitted ++ [⟨RecordType.kFullType, data, startOffset w.block_offset_⟩] } := by
  unfold AppendRecord
  rw [if_neg (by omega), AppendRecordLoop_last hL _ w data true hbo hfit]
  rfl

/-- A record that exceeds the room left in the block by one byte, in a block
with room for a header, is emitted as `FIRST` up to the block end and `LAST`
with the final byte at the start of the next block. -/
theorem AppendRecord_straddle {L : LogRecordLayout} (hL : L.WellFormed) (w : Writer)
    (data : List Nat) (hbo : w.block_offset_ + kHeaderSize ≤ kBlockSize)
    (hn : data.length = kBlockSize - kHeaderSize - w.block_offset_ + 1) :
    AppendRecord L w data = .ok { w with
      file_ := w.file_ ++
        [headerBytes L RecordType.kFirstType
            (data.take (kBlockSize - kHeaderSize - w.block_offset_)),
          data.take (kBlockSize - kHeaderSize - w.block_offset_),
          headerBytes L RecordType.kLastType
            (data.drop (kBlockSize - kHeaderSize - w.block_offset_)),
          data.drop (kBlockSize - kHeaderSize - w.block_offset_)]
      block_offset_ := kHeaderSize + 1
      emitted := w.emitted ++
        [⟨RecordType.kFirstType, data.take (kBlockSize - kHeaderSize - w.block_offset_),
            w.block_offset_⟩,
          ⟨RecordType.kLastType, data.drop (kBlockSize - kHeaderSize - w.block_offset_), 0⟩] } := by
  have hb : w.block_offset_ ≤ kBlockSize := by omega
  have hs : startOffset w.block_offset_ = w.block_offset_ := by
    rcases startOffset_cases w.block_offset_ with ⟨_, h1⟩ | ⟨h0, _⟩
    · omega
    · exact h0
  have hpad : padWrites w.block_offset_ = [] := padWrites_of_room _ (by omega)
  have hk : kBlockSize - w.block_offset_ - kHeaderSize =
      kBlockSize - kHeaderSize - w.block_offset_ := by omega
  have hdrop : (data.drop (kBlockSize - kHeaderSize - w.block_offset_)).length = 1 := by
    rw [List.length_drop]; omega
  have hfuel : 2 * data.length + 2 = 2 * data.length + 1 + 1 := rfl
  unfold AppendRecord
  rw [if_neg (by omega), hfuel,
    AppendRecordLoop_more hL _ w data true hb (by rw [hs]; omega), hs, hpad, hk,
    AppendRecordLoop_last hL _ _ _ false (Nat.le_refl _)
      (by rw [startOffset_full, hdrop, kBlockSize_eq, kHeaderSize_eq]; decide)]
  simp only [startOffset_full, padWrites_full, hdrop, List.nil_append, List.append_assoc,
    List.cons_append, Nat.zero_add]
  rfl

/-! ## The value the specification gives for `size_` -/

theorem specSize_nil (L : LogRecordLayout) (w : Writer) : specSize L w [] = 0 := by
  rw [specSize]

theorem specSize_single_overflow (L : LogRecordLayout) (w : Writer) (data : List Nat)
    (h : kBlockSize < w.block_offset_ + (kHeaderSize + data.length)) :
    specSize L w [Op.append_buffered data] = 0 := by
  rw [specSize, if_neg (by omega)]
  cases (step L w (Op.append_buffered data)).toOption with
  | none => rfl
  | some w1 =>
    simp only [Option.map_some', Option.getD_some, specSize_nil]

theorem enqueuedSize_single_buffered (data : List Nat) :
    enqueuedSize [Op.append_buffered data] = kHeaderSize + data.length + 0 := rfl

theorem run_single (L : LogRecordLayout) (w : Writer) (op : Op) :
    run L w [op] = step L w op := by
  rw [run_cons]
  cases step L w op <;> rfl

/-- On a fresh writer `append` of any 32760 bytes leaves one byte in the
block. -/
theorem append_32760_on_fresh (data : List Nat) (hlen : data.length = 32760) :
    ∃ w : Writer,
      run sizeTypeLayout fresh [Op.append data] = .ok w ∧
      w.block_offset_ = 32767 ∧
      ¬ (w.block_offset_ + 7 ≤ 32768 ∨ w.block_offset_ = 32768) := by
  have hL : sizeTypeLayout.WellFormed := by decide
  have h := AppendRecord_single hL fresh data (Nat.zero_le _)
    (by rw [hlen]; decide)
  have hrun := run_single sizeTypeLayout fresh (Op.append data)
  rw [step, h] at hrun
  have hbo : startOffset fresh.block_offset_ + (kHeaderSize + data.length) = 32767 := by
    rw [hlen]; decide
  exact ⟨_, hrun, hbo, by
    rw [hbo]
    show ¬ ((32767 : Nat) + 7 ≤ 32768 ∨ (32767 : Nat) = 32768)
    decide⟩

/-! ## Number of iterations of the fragmenting loop -/

/-- The loop returns after as many iterations as it emits fragments; an
iteration that is followed by another one fills its block; the number of
fragments is bounded. -/
theorem AppendRecordLoop_iterations {L : LogRecordLayout} (hL : L.WellFormed) :
    ∀ (n : Nat) (w : Writer) (left : List Nat) (begin : Bool),
      w.block_offset_ ≤ kBlockSize →
      2 * left.length + (if w.block_offset_ = kBlockSize - kHeaderSize then 2 else 1) ≤ n →
      ∃ frs : List Fragment,
        (∀ fuel, frs.length ≤ fuel →
          AppendRecordLoop L fuel w left begin = .ok { w with
            file_ := w.file_ ++ fragWrites L w.block_offset_ frs
            block_offset_ := endOffset w.block_offset_ frs
            emitted := w.emitted ++ frs }) ∧
        BlockFilling frs ∧
        (∃ f fs, frs = f :: fs ∧ f.offset = startOffset w.block_offset_ ∧
          (left ≠ [] → startOffset w.block_offset_ + kHeaderSize < kBlockSize →
            f.payload ≠ [])) ∧
        frs.length ≤ 1 + (left.length + 32760) / 32761 ∧
        (startOffset w.block_offset_ = 0 → left ≠ [] →
          frs.length ≤ (left.length + 32760) / 32761) := by
  intro n
  induction n with
  | zero =>
    intro w left begin _ hf
    exfalso
    split at hf <;> omega
  | succ n ih =>
    intro w left begin hbo hf
    have hs := startOffset_le hbo
    by_cases hfit : startOffset w.block_offset_ + kHeaderSize + left.length ≤ kBlockSize
    · refine ⟨[⟨fragmentType begin true, left, startOffset w.block_offset_⟩],
        ?_, trivial, ⟨_, [], rfl, rfl, ?_⟩, ?_, ?_⟩
      · intro fuel hfuel
        obtain ⟨k, rfl⟩ : ∃ k, fuel = k + 1 := ⟨fuel - 1, by simp at hfuel; omega⟩
        rw [AppendRecordLoop_last hL k w left begin hbo hfit]
        simp only [fragWrites, endOffset, List.append_nil, List.append_assoc, Nat.add_assoc]
      · intro hne _
        exact hne
      · simp
      · intro _ hne
        have : 0 < left.length := List.length_pos.mpr hne
        simp only [List.length_singleton]
        omega
    · have hmore : kBlockSize < startOffset w.block_offset_ + kHeaderSize + left.length := by omega
      have hk : startOffset w.block_offset_ + kHeaderSize +
          (left.take (kBlockSize - startOffset w.block_offset_ - kHeaderSize)).length
          = kBlockSize := by
        rw [List.length_take]; omega
      have hdl : (left.drop (kBlockSize - startOffset w.block_offset_ - kHeaderSize)).length =
          left.length - (kBlockSize - startOffset w.block_offset_ - kHeaderSize) :=
        List.length_drop _ _
      have hdne : left.drop (kBlockSize - startOffset w.block_offset_ - kHeaderSize) ≠ [] :=
        List.ne_nil_of_length_pos (by rw [hdl]; omega)
      have hfuel : 2 * (left.drop (kBlockSize - startOffset w.block_offset_ - kHeaderSize)).length +
          (if kBlockSize = kBlockSize - kHeaderSize then 2 else 1) ≤ n := by
        rw [hdl, if_neg (by rw [kBlockSize_eq, kHeaderSize_eq]; omega)]
        rcases startOffset_cases w.block_offset_ with ⟨h0, h1⟩ | ⟨h0, h1⟩
        · rw [h0] at hmore ⊢
          rw [if_neg (by rw [kBlockSize_eq, kHeaderSize_eq] at *; omega)] at hf
          rw [kBlockSize_eq, kHeaderSize_eq] at *
          omega
        · rw [h0] at hmore ⊢
          split at hf <;> rw [kBlockSize_eq, kHeaderSize_eq] at * <;> omega
      obtain ⟨frs, h1, h2, ⟨g, gs, hg, hgoff, hgne⟩, _, h5⟩ := ih
        { w with
          file_ := w.file_ ++ (padWrites w.block_offset_ ++
            [headerBytes L (fragmentType begin false)
              (left.take (kBlockSize - startOffset w.block_offset_ - kHeaderSize)),
             left.take (kBlockSize - startOffset w.block_offset_ - kHeaderSize)])
          block_offset_ := kBlockSize
          emitted := w.emitted ++ [⟨fragmentType begin false,
            left.take (kBlockSize - startOffset w.block_offset_ - kHeaderSize),
            startOffset w.block_offset_⟩] }
        (left.drop (kBlockSize - startOffset w.block_offset_ - kHeaderSize)) false
        (Nat.le_refl _) hfuel
      have h5' := h5 startOffset_full hdne
      rw [hdl] at h5'
      refine ⟨⟨fragmentType begin false,
            left.take (kBlockSize - startOffset w.block_offset_ - kHeaderSize),
            startOffset w.block_offset_⟩ :: frs, ?_, ?_, ⟨_, frs, rfl, rfl, ?_⟩, ?_, ?_⟩
      · intro fuel hfl
        obtain ⟨k, rfl⟩ : ∃ k, fuel = k + 1 := ⟨fuel - 1, by simp at hfl; omega⟩
        rw [AppendRecordLoop_more hL k w left begin hbo hmore,
          h1 k (by simpa using hfl)]
        simp only [fragWrites, endOffset, hk, List.append_assoc, List.cons_append,
          List.nil_append]
      · subst hg
        refine ⟨hk, ?_, ?_, h2⟩
        · rw [hgoff]; exact startOffset_full
        · exact hgne hdne (by rw [startOffset_full, kBlockSize_eq, kHeaderSize_eq]; decide)
      · intro hne hroom
        apply List.ne_nil_of_length_pos
        rw [List.length_take]
        have : 0 < left.length := List.length_pos.mpr hne
        omega
      · simp only [List.length_cons]
        rw [kBlockSize_eq, kHeaderSize_eq] at *
        omega
      · intro hz _
        simp only [List.length_cons]
        rw [hz] at hmore h5'
        rw [kBlockSize_eq, kHeaderSize_eq] at *
        omega

theorem BlockFilling_adjacent : ∀ (pre : List Fragment) (f g : Fragment) (post : List Fragment),
    BlockFilling (pre ++ f :: g :: post) →
    f.offset + kHeaderSize + f.payload.length = kBlockSize ∧ g.offset = 0 ∧ g.payload ≠ [] := by
  intro pre
  induction pre with
  | nil =>
    intro f g post h
    exact ⟨h.1, h.2.1, h.2.2.1⟩
  | cons a pre ih =>
    intro f g post h
    cases pre with
    | nil => exact ih f g post h.2.2.2
    | cons b pre' => exact ih f g post h.2.2.2

/-! ## Direct appends while the buffer is not empty -/

theorem AppendRecordToBuffer_fast_facts {L : LogRecordLayout} (hL : L.WellFormed) (w : Writer)
    (data : List Nat) (h : w.block_offset_ + kHeaderSize + data.length ≤ kBlockSize) :
    ∃ w' : Writer, AppendRecordToBuffer L w data = .ok w' ∧
      w'.block_offset_ = w.block_offset_ + (kHeaderSize + data.length) ∧
      w'.rep_.length = w.rep_.length + (kHeaderSize + data.length) ∧
      w'.file_ = w.file_ := by
  refine ⟨_, AppendRecordToBuffer_fast hL w data h, rfl, ?_, rfl⟩
  simp only [List.length_append, headerBytes_length]
  omega

theorem AppendRecord_straddle_facts {L : LogRecordLayout} (hL : L.WellFormed) (w : Writer)
    (data : List Nat) (hbo : w.block_offset_ + kHeaderSize ≤ kBlockSize)
    (hn : data.length = kBlockSize - kHeaderSize - w.block_offset_ + 1) :
    ∃ w' : Writer, AppendRecord L w data = .ok w' ∧
      w'.block_offset_ = kHeaderSize + 1 ∧ w'.rep_ = w.rep_ :=
  ⟨_, AppendRecord_straddle hL w data hbo hn, rfl, rfl⟩

/-- Buffered records, a direct record that wraps `block_offset_` into the next
block, and more buffered records: the buffer grows beyond one block. -/
theorem buffer_exceeds_block (d1 d2 d3 : List Nat) (h1 : d1.length = 32000)
    (h2 : d2.length = 755) (h3 : d3.length = 1000) :
    ∃ w : Writer,
      run sizeTypeLayout fresh
        [Op.append_buffered d1, Op.append d2, Op.append_buffered d3] = .ok w ∧
      w.rep_.length = 33014 ∧ w.block_offset_ = 1015 := by
  have hL : sizeTypeLayout.WellFormed := by decide
  have hb0 : fresh.block_offset_ = 0 := rfl
  have hr0 : fresh.rep_.length = 0 := rfl
  obtain ⟨w1, e1, b1, r1, _⟩ := AppendRecordToBuffer_fast_facts hL fresh d1
    (by rw [hb0, h1]; decide)
  obtain ⟨w2, e2, b2, r2⟩ := AppendRecord_straddle_facts hL w1 d2
    (by rw [b1, hb0, h1]; decide) (by rw [b1, hb0, h1, h2]; decide)
  obtain ⟨w3, e3, b3, r3, _⟩ := AppendRecordToBuffer_fast_facts hL w2 d3
    (by rw [b2, h3]; decide)
  refine ⟨w3, ?_, ?_, ?_⟩
  · rw [run_cons, step, e1, bind_ok, run_cons, step, e2, bind_ok, run_single, step, e3]
  · rw [r3, r2, r1, hr0, h1, h3]
    decide
  · rw [b3, b2, h3]
    decide

/-! ## Exact accounting of the primitive steps -/

theorem tinyio_write_pos (errno size : Nat) (h : 0 < size) :
    tinyio.file.write errno size = some size := by
  have h0 : ¬ size ≤ 0 := by omega
  simp [tinyio.file.write, tinyio.file.write_ec, h0]

theorem tinyio_write_zero (errno : Nat) :
    tinyio.file.write errno 0 = if errno ≠ 0 then none else some 0 := by
  unfold tinyio.file.write tinyio.file.write_ec
  simp

theorem ofExcept_bind (x : Except Fault Writer) (f : Writer → Except Fault Writer) :
    Outcome.ofExcept (x.bind f) =
      (Outcome.ofExcept x).bind (fun w => Outcome.ofExcept (f w)) := by
  cases x <;> rfl

theorem Outcome_bind_congr (o : Outcome) (f g : Writer → Outcome) (h : ∀ w, f w = g w) :
    o.bind f = o.bind g := by
  have : f = g := funext h
  rw [this]

/-- When `errno` is 0 or the payload is not empty, no write of
`EmitPhysicalRecord` is reported as a failure. -/
theorem EmitPhysicalRecordPosix_eq (errno : Nat) (L : LogRecordLayout) (w : Writer)
    (t : RecordType) (p : List Nat) (h : errno = 0 ∨ p ≠ []) :
    EmitPhysicalRecordPosix errno L w t p = Outcome.ofExcept (EmitPhysicalRecord L w t p) := by
  unfold EmitPhysicalRecordPosix EmitPhysicalRecord
  by_cases h1 : ¬ p.length < 0xffff
  · rw [if_pos h1, if_pos h1]; rfl
  rw [if_neg h1, if_neg h1]
  by_cases h2 : ¬ w.block_offset_ + kHeaderSize + p.length ≤ kBlockSize
  · rw [if_pos h2, if_pos h2]; rfl
  rw [if_neg h2, if_neg h2]
  cases fillHeader L (List.replicate kHeaderSize none) t p.length p with
  | none => rfl
  | some buf =>
    have hw : tinyio.file.write errno p.length = some p.length := by
      rcases h with h | h
      · subst h
        by_cases hp : 0 < p.length
        · exact tinyio_write_pos 0 _ hp
        · have : p.length = 0 := by omega
          rw [this, tinyio_write_zero]
          simp
      · exact tinyio_write_pos errno _ (List.length_pos.mpr h)
    simp only [tinyio_write_pos errno kHeaderSize (by decide), hw, Outcome.ofExcept,
      List.append_assoc, List.singleton_append]

/-- With `errno = 0` the loop behaves as `AppendRecordLoop`. -/
theorem AppendRecordLoopPosix_clear (L : LogRecordLayout) (fuel : Nat) :
    ∀ (w : Writer) (left : List Nat) (b : Bool),
      AppendRecordLoopPosix 0 L fuel w left b =
        Outcome.ofExcept (AppendRecordLoop L fuel w left b) := by
  induction fuel with
  | zero => intro w left b; rfl
  | succ k ih =>
    intro w left b
    rw [AppendRecordLoopPosix, AppendRecordLoop]
    rw [EmitPhysicalRecordPosix_eq 0 L _ _ _ (Or.inl rfl), ofExcept_bind]
    apply Outcome_bind_congr
    intro w2
    rw [apply_ite Outcome.ofExcept, ih]
    rfl

theorem AppendRecordPosix_clear (L : LogRecordLayout) (w : Writer) (data : List Nat) :
    AppendRecordPosix 0 L w data = Outcome.ofExcept (AppendRecord L w data) := by
  unfold AppendRecordPosix AppendRecord
  split
  · rfl
  · exact AppendRecordLoopPosix_clear L _ _ _ _

theorem AppendRecordToBufferPosix_clear (L : LogRecordLayout) (w : Writer) (data : List Nat) :
    AppendRecordToBufferPosix 0 L w data = Outcome.ofExcept (AppendRecordToBuffer L w data) := by
  unfold AppendRecordToBufferPosix AppendRecordToBuffer
  simp only []
  split
  · exact AppendRecordPosix_clear L _ _
  · cases fillHeader L (List.replicate kHeaderSize (some 0)) RecordType.kFullType
      data.length data <;> rfl

theorem stepPosix_clear (L : LogRecordLayout) (w : Writer) (op : Op) :
    stepPosix 0 L w op = Outcome.ofExcept (step L w op) := by
  cases op with
  | append data => exact AppendRecordPosix_clear L w data
  | append_buffered data => exact AppendRecordToBufferPosix_clear L w data
  | flush => rfl
  | sync => rfl

/-- With `errno = 0` a sequence of calls behaves as `run`. -/
theorem runPosix_clear (L : LogRecordLayout) (ops : List Op) :
    ∀ w : Writer, runPosix 0 L w ops = Outcome.ofExcept (run L w ops) := by
  induction ops with
  | nil => intro w; rfl
  | cons op ops ih =>
    intro w
    rw [runPosix, run, stepPosix_clear, ofExcept_bind]
    apply Outcome_bind_congr
    intro w1
    exact ih w1

theorem Outcome_bind_returned {o : Outcome} {f : Writer → Outcome} {w : Writer}
    (h : o.bind f = .returned w) : ∃ w1, o = .returned w1 ∧ f w1 = .returned w := by
  cases o with
  | returned w1 => exact ⟨w1, rfl, h⟩
  | threw w1 => cases h
  | fault e => cases h

theorem EmitPhysicalRecordPosix_wellFormed {errno : Nat} {L : LogRecordLayout} {w w' : Writer}
    {t : RecordType} {p : List Nat} (h : EmitPhysicalRecordPosix errno L w t p = .returned w') :
    L.WellFormed := by
  unfold EmitPhysicalRecordPosix at h
  split at h
  · cases h
  · split at h
    · cases h
    · split at h
      · cases h
      · next buf hbuf => exact fillHeader_defined hbuf

theorem AppendRecordPosix_wellFormed {errno : Nat} {L : LogRecordLayout} {w w' : Writer}
    {data : List Nat} (h : AppendRecordPosix errno L w data = .returned w') : L.WellFormed := by
  unfold AppendRecordPosix at h
  split at h
  · cases h
  · rw [AppendRecordLoopPosix] at h
    obtain ⟨w1, h1, _⟩ := Outcome_bind_returned h
    exact EmitPhysicalRecordPosix_wellFormed h1

theorem runPosix_single (errno : Nat) (L : LogRecordLayout) (w : Writer) (op : Op) :
    runPosix errno L w [op] = stepPosix errno L w op := by
  show (stepPosix errno L w op).bind (fun w1 => Outcome.returned w1) = _
  cases stepPosix errno L w op <;> rfl

/-- With a non-zero `errno` the write of an empty payload is reported as a
failure: `EmitPhysicalRecord` does not return. -/
theorem EmitPhysicalRecordPosix_empty (errno : Nat) (herr : errno ≠ 0) (L : LogRecordLayout)
    (w w' : Writer) (t : RecordType) :
    EmitPhysicalRecordPosix errno L w t [] ≠ .returned w' := by
  intro h
  unfold EmitPhysicalRecordPosix at h
  split at h
  · cases h
  · split at h
    · cases h
    · split at h
      · cases h
      · rw [tinyio_write_pos errno kHeaderSize (by decide)] at h
        simp only [List.length_nil, tinyio_write_zero, if_pos herr] at h
        cases h

theorem AppendRecordPosix_empty (errno : Nat) (herr : errno ≠ 0) (L : LogRecordLayout)
    (w w' : Writer) : AppendRecordPosix errno L w [] ≠ .returned w' := by
  intro h
  unfold AppendRecordPosix at h
  split at h
  · cases h
  · rw [AppendRecordLoopPosix] at h
    obtain ⟨w1, h1, _⟩ := Outcome_bind_returned h
    rw [List.take_nil] at h1
    exact EmitPhysicalRecordPosix_empty errno herr L _ _ _ h1

/-- Termination of the loop when no write is reported as a failure.  For
every byte string `data` and every starting `block_offset_ ≤ 32768`, with
`errno = 0` the loop of `append data` returns after as many iterations as it
emits fragments, also when the first iteration emits a fragment of length
zero.  An iteration that is followed by another one leaves
`block_offset_ = 32768`, and the next iteration consumes at least one byte.
The number of fragments emitted is at most `2 + ⌈|data| / 32761⌉`. -/
theorem AppendRecordPosix_terminates (L : LogRecordLayout) (hL : L.WellFormed) (w : Writer)
    (data : List Nat) (hbo : w.block_offset_ ≤ 32768) :
    ∃ (w' : Writer) (frs : List Fragment),
      (∀ fuel, frs.length ≤ fuel →
        AppendRecordLoopPosix 0 L fuel w data true = .returned w') ∧
      AppendRecordPosix 0 L w data = .returned w' ∧
      w'.emitted = w.emitted ++ frs ∧
      frs.length ≤ 2 + (data.length + 32760) / 32761 ∧
      (∀ (pre : List Fragment) (f g : Fragment) (post : List Fragment),
        frs = pre ++ f :: g :: post →
        f.offset + 7 + f.payload.length = 32768 ∧ g.offset = 0 ∧ g.payload ≠ []) := by
  obtain ⟨frs, h1, h2, _, h4, _⟩ :=
    AppendRecordLoop_iterations hL (2 * data.length + 2) w data true hbo (by split <;> omega)
  refine ⟨{ w with
      file_ := w.file_ ++ fragWrites L w.block_offset_ frs
      block_offset_ := endOffset w.block_offset_ frs
      emitted := w.emitted ++ frs }, frs, ?_, ?_, rfl, by omega, ?_⟩
  · intro fuel hf
    rw [AppendRecordLoopPosix_clear, h1 fuel hf]
    rfl
  · rw [AppendRecordPosix_clear]
    unfold AppendRecord
    rw [if_neg (by rw [kBlockSize_eq]; omega), h1 _ (by omega)]
    rfl
  · intro pre f g post hfrs
    rw [hfrs] at h2
    exact BlockFilling_adjacent pre f g post h2

/-! ## Claims -/

/-- C4 (assertion validity, frame containment).  For every byte string `data`
and every writer state with `block_offset_ ≤ 32768`, `AppendRecord` returns
without a failed assertion; every fragment it emits satisfies
`block_offset_before + 7 + length ≤ 32768` and `length < 65535` at the moment
it is emitted; and `block_offset_ ≤ 32768` holds on return. -/
theorem C4_append_assertions_hold (L : LogRecordLayout) (hL : L.WellFormed) (w : Writer)
    (data : List Nat) (hbo : w.block_offset_ ≤ 32768) :
    ∃ (w' : Writer) (frs : List Fragment),
      AppendRecord L w data = .ok w' ∧
      w'.emitted = w.emitted ++ frs ∧
      (∀ f ∈ frs, f.offset + 7 + f.payload.length ≤ 32768 ∧ f.payload.length < 65535) ∧
      w'.block_offset_ ≤ 32768 := by
  obtain ⟨frs, h1, h2, h3, _, _, _⟩ := AppendRecord_spec hL w data hbo
  refine ⟨_, frs, h1, rfl, ?_, h3⟩
  intro f hf
  have := Chain_fits frs _ h2 f hf
  rw [kBlockSize_eq, kHeaderSize_eq] at this
  exact ⟨this, by omega⟩

theorem C4_append_assertions_hold_witness :
    sizeTypeLayout.WellFormed ∧
    ({ fresh with block_offset_ := 32761 } : Writer).block_offset_ ≤ 32768 ∧
    ∃ (w' : Writer) (frs : List Fragment),
      AppendRecord sizeTypeLayout { fresh with block_offset_ := 32761 } [1, 2, 3] = .ok w' ∧
      w'.emitted = ({ fresh with block_offset_ := 32761 } : Writer).emitted ++ frs ∧
      (∀ f ∈ frs, f.offset + 7 + f.payload.length ≤ 32768 ∧ f.payload.length < 65535) ∧
      w'.block_offset_ ≤ 32768 :=
  ⟨by decide, by decide,
    C4_append_assertions_hold sizeTypeLayout (by decide)
      { fresh with block_offset_ := 32761 } [1, 2, 3] (by decide)⟩

/-- C1 as stated fails.  Under no field layout, and for no value of `errno`,
does the reader of the documented format (type at offset 4, length at offsets 5
and 6, checksum over type, length and payload) recover the record `[1]` from
the file that a single `append [1]` leaves behind a fresh writer: the writer
stores the length before the type, so that reader rejects the file. -/
theorem C1_documented_reader_rejects_written_file :
    ¬ ∃ (errno : Nat) (L : LogRecordLayout) (w : Writer),
      runPosix errno L fresh (script [(false, [1])]) = .returned w ∧
      readRecords specLayout w.contents = some [[1]] := by
  rintro ⟨errno, L, w, hrun, hread⟩
  have hstep : AppendRecordPosix errno L fresh [1] = .returned w := by
    rw [← hrun]
    exact (runPosix_single errno L fresh (Op.append [1])).symm
  rcases wellFormed_cases (AppendRecordPosix_wellFormed hstep) with rfl | rfl
  · have e : AppendRecordPosix errno ⟨0, 6, 4⟩ fresh [1] =
        .returned { file_ := [[174, 185, 228, 247, 1, 0, 1], [1]], block_offset_ := 8,
                    emitted := [⟨RecordType.kFullType, [1], 0⟩] } := rfl
    rw [e] at hstep
    injection hstep with hw
    subst hw
    have hnone : readRecords specLayout [174, 185, 228, 247, 1, 0, 1, 1] = none := by decide
    exact absurd (hnone.symm.trans hread) (by simp)
  · have e : AppendRecordPosix errno ⟨3, 2, 0⟩ fresh [1] =
        .returned { file_ := [[1, 0, 1, 174, 185, 228, 247], [1]], block_offset_ := 8,
                    emitted := [⟨RecordType.kFullType, [1], 0⟩] } := rfl
    rw [e] at hstep
    injection hstep with hw
    subst hw
    have hnone : readRecords specLayout [1, 0, 1, 174, 185, 228, 247, 1] = none := by decide
    exact absurd (hnone.symm.trans hread) (by simp)

/-- C1, amended (round trip).  For every finite sequence of byte strings
written to a freshly opened writer on an empty file, each one either by
`append` or by `append_buffered` immediately followed by `flush`, when no write
is reported as a failure (`errno` is 0), all calls return, and a reader that
takes the header fields where the writer stores them (the 2-byte length
directly followed by the type byte) and verifies every checksum as the CRC-32
of the header bytes outside the checksum field followed by the payload
recovers from the resulting file exactly the byte strings written, in
order. -/
theorem C1_roundtrip_at_written_offsets (errno : Nat) (herr : errno = 0)
    (L : LogRecordLayout) (hL : L.WellFormed) (recs : List (Bool × List Nat)) :
    ∃ w : Writer, runPosix errno L fresh (script recs) = .returned w ∧
      readRecords L w.contents = some (recs.map Prod.snd) := by
  subst herr
  obtain ⟨w, added, h1, h2, h3⟩ :=
    script_roundtrip hL recs fresh rfl (Nat.zero_le _)
  have hc : w.contents = added := by
    rw [h2]
    rfl
  obtain ⟨frs, g1, g2⟩ := h3 0 (added.length + 1) rfl (Nat.lt_succ_self _)
  refine ⟨w, ?_, ?_⟩
  · rw [runPosix_clear, h1]
    rfl
  · unfold readRecords
    rw [hc, g1]
    exact g2

theorem C1_roundtrip_at_written_offsets_witness :
    (0 : Nat) = 0 ∧ sizeTypeLayout.WellFormed ∧
    ∃ w : Writer,
      runPosix 0 sizeTypeLayout fresh
        (script [(false, [1, 2]), (true, [3]), (false, [])]) = .returned w ∧
      readRecords sizeTypeLayout w.contents =
        some ([(false, [1, 2]), (true, [3]), (false, [])].map Prod.snd) :=
  ⟨rfl, by decide,
    C1_roundtrip_at_written_offsets 0 rfl sizeTypeLayout (by decide)
      [(false, [1, 2]), (true, [3]), (false, [])]⟩

/-- C2 (program order), evaluated at a failing input.  On a fresh writer the
calls `append_buffered [1]`, `append [2]`, `flush` return, but the record of
the later call `append [2]` is the first one in the file: the two writes of
the direct record precede the write of the buffer, and the reference reader
recovers `[2]` before `[1]`. -/
theorem C2_direct_append_overtakes_buffer :
    run sizeTypeLayout fresh [Op.append_buffered [1], Op.append [2], Op.flush] =
      .ok { file_ := [headerBytes sizeTypeLayout RecordType.kFullType [2], [2],
                      headerBytes sizeTypeLayout RecordType.kFullType [1] ++ [1]]
            block_offset_ := 16
            size_ := 8
            rep_ := []
            emitted := [⟨RecordType.kFullType, [2], 8⟩] } ∧
    readRecords sizeTypeLayout
      ([headerBytes sizeTypeLayout RecordType.kFullType [2], [2],
        headerBytes sizeTypeLayout RecordType.kFullType [1] ++ [1]].flatten) =
      some [[2], [1]] ∧
    [[2], [1]] ≠ [[1], [2]] := by
  refine ⟨by rfl, by rfl, by decide⟩

/-- C5 as stated fails.  Under no field layout does `EmitPhysicalRecord`
produce, for the `FULL` fragment with empty payload, the header the claim
describes (`[checksum][type][length]` with the checksum over
`type ++ length ++ payload`); under the layout the specification tabulates the
checksum computation reads past the end of the header. -/
theorem C5_spec_header_not_produced :
    (¬ ∃ (L : LogRecordLayout) (w' : Writer),
        EmitPhysicalRecord L fresh RecordType.kFullType [] = .ok w' ∧
        w'.file_ = [specHeader RecordType.kFullType [], []]) ∧
    EmitPhysicalRecord specLayout fresh RecordType.kFullType [] = .error .undefinedRead := by
  refine ⟨?_, by rfl⟩
  rintro ⟨L, w', h, hf⟩
  have hL : L.WellFormed := by
    unfold EmitPhysicalRecord at h
    rw [if_neg (by decide), if_neg (by decide)] at h
    split at h
    · cases h
    · next buf hbuf => exact fillHeader_defined hbuf
  rw [EmitPhysicalRecord_ok hL fresh RecordType.kFullType [] (by decide) (by decide)] at h
  cases h
  rcases wellFormed_cases hL with rfl | rfl <;> revert hf <;> decide

/-- C5, amended (header layout and checksum scope).  Every physical record the
writer produces, on the direct path (`EmitPhysicalRecord`) and on the buffered
path (`AppendRecordToBuffer`), is a seven-byte header followed by exactly the
payload bytes.  In the header the two-byte little-endian length, which equals
the payload byte count, is directly followed by the type byte, and the
four-byte little-endian checksum is the CRC-32 of the byte sequence
`length ++ type ++ payload`, the checksum field itself excluded.  With the
checksum at offset 0 the header is `[checksum][length][type]`. -/
theorem C5_header_layout_and_checksum (L : LogRecordLayout) (hL : L.WellFormed) (w : Writer)
    (t : RecordType) (payload : List Nat)
    (hfit : w.block_offset_ + 7 + payload.length ≤ 32768) :
    EmitPhysicalRecord L w t payload = .ok { w with
      file_ := w.file_ ++ [headerBytes L t payload, payload]
      block_offset_ := w.block_offset_ + (7 + payload.length)
      emitted := w.emitted ++ [⟨t, payload, w.block_offset_⟩] } ∧
    AppendRecordToBuffer L w payload = .ok { w with
      size_ := w.size_ + (7 + payload.length)
      rep_ := w.rep_ ++ headerBytes L RecordType.kFullType payload ++ payload
      block_offset_ := w.block_offset_ + (7 + payload.length) } ∧
    ∀ t' : RecordType,
      (headerBytes L t' payload).length = 7 ∧
      headerSize L (headerBytes L t' payload) = payload.length ∧
      headerBytes L t' payload =
        if L.checksum = 0 then
          le32 (crc32 (le16 payload.length ++ [t'.toByte] ++ payload)) ++
            (le16 payload.length ++ [t'.toByte])
        else
          (le16 payload.length ++ [t'.toByte]) ++
            le32 (crc32 (le16 payload.length ++ [t'.toByte] ++ payload)) := by
  have hp : payload.length % 65536 = payload.length := by omega
  refine ⟨EmitPhysicalRecord_ok hL w t payload (by omega) hfit,
    AppendRecordToBuffer_fast hL w payload hfit, ?_⟩
  intro t'
  refine ⟨headerBytes_length L t' payload, ?_, ?_⟩
  · rw [headerSize_headerBytes hL, hp]
  · unfold headerBytes
    rw [hp]

theorem C5_header_layout_and_checksum_witness :
    sizeTypeLayout.WellFormed ∧ fresh.block_offset_ + 7 + [9, 8].length ≤ 32768 ∧
    EmitPhysicalRecord sizeTypeLayout fresh RecordType.kFirstType [9, 8] = .ok { fresh with
      file_ := fresh.file_ ++ [headerBytes sizeTypeLayout RecordType.kFirstType [9, 8], [9, 8]]
      block_offset_ := fresh.block_offset_ + (7 + [9, 8].length)
      emitted := fresh.emitted ++ [⟨RecordType.kFirstType, [9, 8], fresh.block_offset_⟩] } ∧
    AppendRecordToBuffer sizeTypeLayout fresh [9, 8] = .ok { fresh with
      size_ := fresh.size_ + (7 + [9, 8].length)
      rep_ := fresh.rep_ ++ headerBytes sizeTypeLayout RecordType.kFullType [9, 8] ++ [9, 8]
      block_offset_ := fresh.block_offset_ + (7 + [9, 8].length) } ∧
    ∀ t' : RecordType,
      (headerBytes sizeTypeLayout t' [9, 8]).length = 7 ∧
      headerSize sizeTypeLayout (headerBytes sizeTypeLayout t' [9, 8]) = [9, 8].length ∧
      headerBytes sizeTypeLayout t' [9, 8] =
        if sizeTypeLayout.checksum = 0 then
          le32 (crc32 (le16 [9, 8].length ++ [t'.toByte] ++ [9, 8])) ++
            (le16 [9, 8].length ++ [t'.toByte])
        else
          (le16 [9, 8].length ++ [t'.toByte]) ++
            le32 (crc32 (le16 [9, 8].length ++ [t'.toByte] ++ [9, 8])) :=
  ⟨by decide, by decide,
    C5_header_layout_and_checksum sizeTypeLayout (by decide) fresh RecordType.kFirstType [9, 8]
      (by decide)⟩

/-- C7 (buffered fast path).  For every writer state and every `data` with
`block_offset_ + 7 + |data| ≤ 32768`, `append_buffered data` returns, issues no
write on the file, appends exactly `7 + |data|` bytes to the end of the
buffer, namely one `FULL` header with `length = |data|` followed by `data`,
leaving the bytes already buffered unchanged, and increases both
`block_offset_` and `size_` by exactly `7 + |data|`. -/
theorem C7_buffered_fast_path (L : LogRecordLayout) (hL : L.WellFormed) (w : Writer)
    (data : List Nat) (hfit : w.block_offset_ + 7 + data.length ≤ 32768) :
    ∃ (w' : Writer) (hdr : List Nat),
      AppendRecordToBuffer L w data = .ok w' ∧
      w'.file_ = w.file_ ∧
      w'.rep_ = w.rep_ ++ (hdr ++ data) ∧
      hdr.length = 7 ∧ (hdr ++ data).length = 7 + data.length ∧
      headerType L hdr = RecordType.kFullType.toByte ∧
      headerSize L hdr = data.length ∧
      w'.block_offset_ = w.block_offset_ + (7 + data.length) ∧
      w'.size_ = w.size_ + (7 + data.length) := by
  have hp : data.length % 65536 = data.length := by omega
  refine ⟨_, headerBytes L RecordType.kFullType data,
    AppendRecordToBuffer_fast hL w data hfit, rfl, ?_, headerBytes_length _ _ _, ?_,
    headerType_headerBytes hL _ _, ?_, rfl, rfl⟩
  · simp only [List.append_assoc]
  · rw [List.length_append, headerBytes_length, kHeaderSize_eq]
  · rw [headerSize_headerBytes hL, hp]

theorem C7_buffered_fast_path_witness :
    sizeTypeLayout.WellFormed ∧
    ({ fresh with block_offset_ := 57, rep_ := List.replicate 57 0 } : Writer).block_offset_
      + 7 + [5, 6].length ≤ 32768 ∧
    ∃ (w' : Writer) (hdr : List Nat),
      AppendRecordToBuffer sizeTypeLayout
        { fresh with block_offset_ := 57, rep_ := List.replicate 57 0 } [5, 6] = .ok w' ∧
      w'.file_ = ({ fresh with block_offset_ := 57, rep_ := List.replicate 57 0 } : Writer).file_ ∧
      w'.rep_ = ({ fresh with block_offset_ := 57, rep_ := List.replicate 57 0 } : Writer).rep_
        ++ (hdr ++ [5, 6]) ∧
      hdr.length = 7 ∧ (hdr ++ [5, 6]).length = 7 + [5, 6].length ∧
      headerType sizeTypeLayout hdr = RecordType.kFullType.toByte ∧
      headerSize sizeTypeLayout hdr = [5, 6].length ∧
      w'.block_offset_ =
        ({ fresh with block_offset_ := 57, rep_ := List.replicate 57 0 } : Writer).block_offset_
          + (7 + [5, 6].length) ∧
      w'.size_ = ({ fresh with block_offset_ := 57, rep_ := List.replicate 57 0 } : Writer).size_
        + (7 + [5, 6].length) :=
  ⟨by decide, by decide,
    C7_buffered_fast_path sizeTypeLayout (by decide)
      { fresh with block_offset_ := 57, rep_ := List.replicate 57 0 } [5, 6] (by decide)⟩

/-- C8 (buffered overflow path).  For every writer state with
`block_offset_ ≤ 32768` and every `data` with
`block_offset_ + 7 + |data| > 32768`, `append_buffered data` returns and
produces the same writes on the file, the same (empty) buffer and the same
`block_offset_` as `flush` followed by `append data`.  In particular, on a
fresh writer a payload of 65000 bytes is emitted as a `FIRST` fragment of
32761 bytes followed by a `LAST` fragment of 32239 bytes, and `block_offset_`
ends at 32246. -/
theorem C8_buffered_overflow_path (L : LogRecordLayout) (hL : L.WellFormed) (w : Writer)
    (data : List Nat) (hbo : w.block_offset_ ≤ 32768)
    (hover : 32768 < w.block_offset_ + 7 + data.length) :
    (∃ w1 w2 : Writer,
      AppendRecordToBuffer L w data = .ok w1 ∧
      AppendRecord L (FlushBuffer w) data = .ok w2 ∧
      w1.file_ = w2.file_ ∧ w1.rep_ = [] ∧ w2.rep_ = [] ∧
      w1.block_offset_ = w2.block_offset_) ∧
    (∀ big : List Nat, big.length = 65000 →
      ∃ w' : Writer,
        AppendRecordToBuffer L fresh big = .ok w' ∧
        w'.emitted = [⟨RecordType.kFirstType, big.take 32761, 0⟩,
                      ⟨RecordType.kLastType, big.drop 32761, 0⟩] ∧
        (big.take 32761).length = 32761 ∧ (big.drop 32761).length = 32239 ∧
        w'.block_offset_ = 32246) := by
  constructor
  · have hbo' : (FlushBuffer w).block_offset_ ≤ kBlockSize := by
      rw [FlushBuffer_block_offset]; exact hbo
    obtain ⟨frs, h1, _, _, _, _, _⟩ := AppendRecord_spec hL (FlushBuffer w) data hbo'
    refine ⟨{ (FlushBuffer w) with
        size_ := w.size_ + (kHeaderSize + data.length)
        file_ := (FlushBuffer w).file_ ++ fragWrites L (FlushBuffer w).block_offset_ frs
        block_offset_ := endOffset (FlushBuffer w).block_offset_ frs
        emitted := (FlushBuffer w).emitted ++ frs }, _, ?_, h1, rfl, ?_, ?_, rfl⟩
    · rw [AppendRecordToBuffer_overflow L w data hover, FlushBuffer_size,
        AppendRecord_size hL _ _ _ hbo', h1]
      rfl
    · exact FlushBuffer_rep w
    · exact FlushBuffer_rep w
  · intro big hlen
    have hfuel : 2 * big.length + 2 = 130000 + 1 + 1 := by omega
    have htake : (big.take 32761).length = 32761 := by
      rw [List.length_take]; omega
    have hdrop : (big.drop 32761).length = 32239 := by
      rw [List.length_drop]; omega
    rw [AppendRecordToBuffer_overflow L fresh big (by rw [hlen]; decide),
      FlushBuffer_of_empty _ rfl]
    unfold AppendRecord
    rw [if_neg (fun h => h (Nat.zero_le _)), hfuel,
      AppendRecordLoop_more hL _ _ big true (Nat.zero_le _)
        (by rw [hlen]; decide),
      AppendRecordLoop_last hL _ _ _ false (Nat.le_refl _)
        (by rw [startOffset_full, List.length_drop, hlen]; decide)]
    refine ⟨_, rfl, ?_, htake, hdrop, ?_⟩
    · simp only [startOffset_full]
      rfl
    · simp only [startOffset_full, List.length_drop, hlen]
      rfl

theorem C8_buffered_overflow_path_witness :
    sizeTypeLayout.WellFormed ∧
    ({ fresh with block_offset_ := 32765, rep_ := [1] } : Writer).block_offset_ ≤ 32768 ∧
    32768 < ({ fresh with block_offset_ := 32765, rep_ := [1] } : Writer).block_offset_
      + 7 + [5, 6].length ∧
    (∃ w1 w2 : Writer,
      AppendRecordToBuffer sizeTypeLayout
        { fresh with block_offset_ := 32765, rep_ := [1] } [5, 6] = .ok w1 ∧
      AppendRecord sizeTypeLayout
        (FlushBuffer { fresh with block_offset_ := 32765, rep_ := [1] }) [5, 6] = .ok w2 ∧
      w1.file_ = w2.file_ ∧ w1.rep_ = [] ∧ w2.rep_ = [] ∧
      w1.block_offset_ = w2.block_offset_) ∧
    (∀ big : List Nat, big.length = 65000 →
      ∃ w' : Writer,
        AppendRecordToBuffer sizeTypeLayout fresh big = .ok w' ∧
        w'.emitted = [⟨RecordType.kFirstType, big.take 32761, 0⟩,
                      ⟨RecordType.kLastType, big.drop 32761, 0⟩] ∧
        (big.take 32761).length = 32761 ∧ (big.drop 32761).length = 32239 ∧
        w'.block_offset_ = 32246) :=
  ⟨by decide, by decide, by decide,
    C8_buffered_overflow_path sizeTypeLayout (by decide)
      { fresh with block_offset_ := 32765, rep_ := [1] } [5, 6] (by decide) (by decide)⟩

/-- C9 as stated fails.  Under no field layout, and for no value of `errno`,
does `append` of the empty byte string on a fresh writer return with a header
written whose checksum is the CRC-32 of the three bytes `[1, 0, 0]`; under the
layout with the checksum first and the length before the type, the checksum
written is the CRC-32 of `[0, 0, 1]`, which is a different value. -/
theorem C9_checksum_is_not_of_type_first :
    (¬ ∃ (errno : Nat) (L : LogRecordLayout) (w' : Writer) (hdr : List Nat),
        AppendRecordPosix errno L fresh [] = .returned w' ∧ w'.file_ = [hdr, []] ∧
        headerChecksum L hdr = crc32 [1, 0, 0]) ∧
    AppendRecordPosix 0 sizeTypeLayout fresh [] = .returned { fresh with
      file_ := [le32 (crc32 [0, 0, 1]) ++ [0, 0, 1], []]
      block_offset_ := 7
      emitted := [⟨RecordType.kFullType, [], 0⟩] } ∧
    crc32 [0, 0, 1] ≠ crc32 [1, 0, 0] := by
  refine ⟨?_, by rfl, by decide⟩
  rintro ⟨errno, L, w', hdr, h, hf, hc⟩
  by_cases herr : errno = 0
  · subst herr
    have hL : L.WellFormed := AppendRecordPosix_wellFormed h
    rw [AppendRecordPosix_clear] at h
    unfold AppendRecord at h
    rw [if_neg (by decide),
      AppendRecordLoop_last hL _ fresh [] true (by decide) (by decide)] at h
    cases h
    have hf' : hdr = headerBytes L RecordType.kFullType [] := by
      have hf2 : [headerBytes L RecordType.kFullType [], ([] : List Nat)] = [hdr, []] := hf
      exact (List.cons.inj hf2).1.symm
    subst hf'
    rw [headerChecksum_headerBytes hL] at hc
    revert hc
    decide
  · exact AppendRecordPosix_empty errno herr L fresh w' h

/-- C9, amended (empty record).  For every writer state with
`block_offset_ ≤ 32768`, `append` of the empty byte string, when its write of
zero payload bytes is not reported as a failure (`errno` is 0), returns and
emits exactly one fragment, of type `FULL`, with length field 0 and no payload
bytes (after the padding write, if the block trailer is shorter than a
header); the checksum of its header is the CRC-32 of the three bytes
`[0, 0, 1]`, the two length bytes followed by the type byte.  On a fresh writer
the file then holds exactly 7 bytes and `block_offset_` is 7. -/
theorem C9_empty_record (errno : Nat) (herr : errno = 0) (L : LogRecordLayout)
    (hL : L.WellFormed) (w : Writer) (hbo : w.block_offset_ ≤ 32768) :
    (∃ hdr : List Nat,
      AppendRecordPosix errno L w [] = .returned { w with
        file_ := w.file_ ++ (padWrites w.block_offset_ ++ [hdr, []])
        block_offset_ := startOffset w.block_offset_ + 7
        emitted := w.emitted ++ [⟨RecordType.kFullType, [], startOffset w.block_offset_⟩] } ∧
      hdr.length = 7 ∧
      headerType L hdr = 1 ∧ headerSize L hdr = 0 ∧
      headerChecksum L hdr = crc32 [0, 0, 1]) ∧
    (∃ w0 : Writer, AppendRecordPosix errno L fresh [] = .returned w0 ∧
      w0.contents.length = 7 ∧ w0.block_offset_ = 7) := by
  subst herr
  have hlast : ∀ v : Writer, v.block_offset_ ≤ 32768 →
      AppendRecordPosix 0 L v [] = .returned { v with
        file_ := v.file_ ++ (padWrites v.block_offset_ ++
          [headerBytes L RecordType.kFullType [], []])
        block_offset_ := startOffset v.block_offset_ + 7
        emitted := v.emitted ++ [⟨RecordType.kFullType, [], startOffset v.block_offset_⟩] } := by
    intro v hv
    have hs := startOffset_le (show v.block_offset_ ≤ kBlockSize from hv)
    rw [AppendRecordPosix_clear]
    unfold AppendRecord
    rw [if_neg (by rw [kBlockSize_eq]; omega),
      AppendRecordLoop_last hL _ v [] true hv (by simpa using hs)]
    rfl
  constructor
  · refine ⟨headerBytes L RecordType.kFullType [], hlast w hbo, headerBytes_length _ _ _, ?_, ?_, ?_⟩
    · rw [headerType_headerBytes hL]; rfl
    · rw [headerSize_headerBytes hL]; rfl
    · rw [headerChecksum_headerBytes hL]; decide
  · refine ⟨_, hlast fresh (by decide), ?_, ?_⟩
    · simp only [Writer.contents, padWrites_zero, fresh, List.nil_append, List.flatten_cons,
        List.flatten_nil, List.append_nil, headerBytes_length, kHeaderSize_eq]
    · simp only [startOffset_zero, fresh]

theorem C9_empty_record_witness :
    (0 : Nat) = 0 ∧ sizeTypeLayout.WellFormed ∧
    ({ fresh with block_offset_ := 32765 } : Writer).block_offset_ ≤ 32768 ∧
    (∃ hdr : List Nat,
      AppendRecordPosix 0 sizeTypeLayout { fresh with block_offset_ := 32765 } [] = .returned
        { ({ fresh with block_offset_ := 32765 } : Writer) with
          file_ := ({ fresh with block_offset_ := 32765 } : Writer).file_ ++
            (padWrites ({ fresh with block_offset_ := 32765 } : Writer).block_offset_ ++ [hdr, []])
          block_offset_ :=
            startOffset ({ fresh with block_offset_ := 32765 } : Writer).block_offset_ + 7
          emitted := ({ fresh with block_offset_ := 32765 } : Writer).emitted ++
            [⟨RecordType.kFullType, [],
              startOffset ({ fresh with block_offset_ := 32765 } : Writer).block_offset_⟩] } ∧
      hdr.length = 7 ∧
      headerType sizeTypeLayout hdr = 1 ∧ headerSize sizeTypeLayout hdr = 0 ∧
      headerChecksum sizeTypeLayout hdr = crc32 [0, 0, 1]) ∧
    (∃ w0 : Writer, AppendRecordPosix 0 sizeTypeLayout fresh [] = .returned w0 ∧
      w0.contents.length = 7 ∧ w0.block_offset_ = 7) :=
  ⟨rfl, by decide, by decide,
    C9_empty_record 0 rfl sizeTypeLayout (by decide)
      { fresh with block_offset_ := 32765 } (by decide)⟩

/-- C10 (flush).  For every writer state, `flush` puts the entire buffer
content into the file, as one write (none when the buffer is empty), and
leaves the buffer empty, with `block_offset_` and `size_` unchanged; a second
`flush` immediately after issues no write, so that `flush` followed by `flush`
yields the same file and the same writer state as a single `flush`. -/
theorem C10_flush (w : Writer) :
    (FlushBuffer w).file_ = (if w.rep_ = [] then w.file_ else w.file_ ++ [w.rep_]) ∧
    (FlushBuffer w).contents = w.contents ++ w.rep_ ∧
    (FlushBuffer w).rep_ = [] ∧
    (FlushBuffer w).block_offset_ = w.block_offset_ ∧
    (FlushBuffer w).size_ = w.size_ ∧
    (FlushBuffer (FlushBuffer w)).file_ = (FlushBuffer w).file_ ∧
    FlushBuffer (FlushBuffer w) = FlushBuffer w := by
  have h2 : FlushBuffer (FlushBuffer w) = FlushBuffer w :=
    FlushBuffer_of_empty _ (FlushBuffer_rep w)
  by_cases h : w.rep_ = []
  · rw [h2, FlushBuffer_of_empty w h, if_pos h, h]
    simp
  · rw [h2, FlushBuffer_of_nonempty w h, if_neg h]
    simp [Writer.contents]

/-- C11 (sub-header leftover padding).  For every writer state with
`block_offset_ ≤ 32768` and every `data`, `append data` returns and emits at
least one fragment.  When `32768 - block_offset_ < 7`, the writes that precede
the header of the first fragment hold exactly `32768 - block_offset_` bytes,
all `0x00`, and the first fragment is emitted with `block_offset_` equal to 0.
When `32768 - block_offset_ ≥ 7`, the header of the first fragment is the
first write and the fragment is emitted at the unchanged `block_offset_`. -/
theorem C11_subheader_padding (L : LogRecordLayout) (hL : L.WellFormed) (w : Writer)
    (data : List Nat) (hbo : w.block_offset_ ≤ 32768) :
    ∃ (w' : Writer) (f : Fragment) (frs : List Fragment) (padding rest : List (List Nat)),
      AppendRecord L w data = .ok w' ∧
      w'.emitted = w.emitted ++ f :: frs ∧
      w'.file_ = w.file_ ++ padding ++ [headerBytes L f.type f.payload, f.payload] ++ rest ∧
      (32768 - w.block_offset_ < 7 →
        padding.flatten = List.replicate (32768 - w.block_offset_) 0 ∧ f.offset = 0) ∧
      (7 ≤ 32768 - w.block_offset_ → padding = [] ∧ f.offset = w.block_offset_) := by
  obtain ⟨frs, h1, h2, _, _, _, h7⟩ := AppendRecord_spec hL w data hbo
  match frs, h2, h7, h1 with
  | f :: fs, h2, _, h1 =>
    obtain ⟨hoff, _, _⟩ := h2
    refine ⟨_, f, fs, padWrites w.block_offset_,
      fragWrites L (f.offset + kHeaderSize + f.payload.length) fs, h1, rfl, ?_, ?_, ?_⟩
    · simp only [fragWrites, List.append_assoc]
    · intro hlt
      have hlt' : kBlockSize - w.block_offset_ < kHeaderSize := hlt
      refine ⟨padWrites_flatten _ hlt', ?_⟩
      rcases startOffset_cases w.block_offset_ with ⟨h0, _⟩ | ⟨_, h1'⟩
      · rw [hoff, h0]
      · omega
    · intro hge
      have hge' : kHeaderSize ≤ kBlockSize - w.block_offset_ := hge
      refine ⟨padWrites_of_room _ hge', ?_⟩
      rcases startOffset_cases w.block_offset_ with ⟨_, h1'⟩ | ⟨h0, _⟩
      · omega
      · rw [hoff, h0]

theorem C11_subheader_padding_witness :
    sizeTypeLayout.WellFormed ∧
    ({ fresh with block_offset_ := 32763 } : Writer).block_offset_ ≤ 32768 ∧
    ∃ (w' : Writer) (f : Fragment) (frs : List Fragment) (padding rest : List (List Nat)),
      AppendRecord sizeTypeLayout { fresh with block_offset_ := 32763 } [67, 67] = .ok w' ∧
      w'.emitted = ({ fresh with block_offset_ := 32763 } : Writer).emitted ++ f :: frs ∧
      w'.file_ = ({ fresh with block_offset_ := 32763 } : Writer).file_ ++ padding ++
        [headerBytes sizeTypeLayout f.type f.payload, f.payload] ++ rest ∧
      (32768 - ({ fresh with block_offset_ := 32763 } : Writer).block_offset_ < 7 →
        padding.flatten =
          List.replicate (32768 - ({ fresh with block_offset_ := 32763 } : Writer).block_offset_) 0
        ∧ f.offset = 0) ∧
      (7 ≤ 32768 - ({ fresh with block_offset_ := 32763 } : Writer).block_offset_ →
        padding = [] ∧ f.offset = ({ fresh with block_offset_ := 32763 } : Writer).block_offset_) :=
  ⟨by decide, by decide,
    C11_subheader_padding sizeTypeLayout (by decide) { fresh with block_offset_ := 32763 }
      [67, 67] (by decide)⟩

/-- C13 as stated fails.  A writer that was used and not closed keeps its
`block_offset_` and its buffer through `Open`: after `append_buffered [1]` on a
fresh writer, `Open` leaves `block_offset_ = 8` and the eight buffered bytes;
and a writer that was closed with a non-empty buffer has a non-empty buffer
after `Open`. -/
theorem C13_open_keeps_offset_and_buffer :
    run sizeTypeLayout fresh [Op.append_buffered [1]] =
      .ok { fresh with
        rep_ := headerBytes sizeTypeLayout RecordType.kFullType [1] ++ [1]
        block_offset_ := 8
        size_ := 8 } ∧
    (Open { fresh with
        rep_ := headerBytes sizeTypeLayout RecordType.kFullType [1] ++ [1]
        block_offset_ := 8
        size_ := 8 }).block_offset_ = 8 ∧
    (Open { fresh with
        rep_ := headerBytes sizeTypeLayout RecordType.kFullType [1] ++ [1]
        block_offset_ := 8
        size_ := 8 }).rep_.length = 8 ∧
    (Open (Close { fresh with
        rep_ := headerBytes sizeTypeLayout RecordType.kFullType [1] ++ [1]
        block_offset_ := 8
        size_ := 8 })).rep_.length = 8 := by
  refine ⟨by rfl, by rfl, by rfl, by rfl⟩

/-- C13, amended (open post-state).  `Open` assigns neither `block_offset_` nor
`size_` nor the buffer: after it succeeds the writer has the values it had
before the call, on a handle on which nothing has been written yet.  For a
newly created writer these are `block_offset_ = 0` and an empty buffer; for a
writer that was closed, `block_offset_` is 0 and the buffer holds what it held
before `Close`. -/
theorem C13_open_post_state (w : Writer) :
    (Open w).block_offset_ = w.block_offset_ ∧
    (Open w).rep_ = w.rep_ ∧
    (Open w).size_ = w.size_ ∧
    (Open w).file_ = [] ∧
    (Open created).block_offset_ = 0 ∧ (Open created).rep_ = [] ∧
    (Open (Close w)).block_offset_ = 0 ∧ (Open (Close w)).rep_ = w.rep_ :=
  ⟨rfl, rfl, rfl, rfl, rfl, rfl, rfl, rfl⟩

/-- C14 (close and sync do not flush).  For every writer state, `Close` sets
`block_offset_` and `size_` to 0 and issues no write on the file, the buffered
bytes staying in the buffer; `Sync` leaves the file, the buffer,
`block_offset_` and `size_` unchanged. -/
theorem C14_close_and_sync_do_not_flush (w : Writer) :
    (Close w).block_offset_ = 0 ∧ (Close w).size_ = 0 ∧
    (Close w).file_ = w.file_ ∧ (Close w).contents = w.contents ∧
    (Close w).rep_ = w.rep_ ∧
    (Sync w).file_ = w.file_ ∧ (Sync w).contents = w.contents ∧
    (Sync w).rep_ = w.rep_ ∧
    (Sync w).block_offset_ = w.block_offset_ ∧ (Sync w).size_ = w.size_ :=
  ⟨rfl, rfl, rfl, rfl, rfl, rfl, rfl, rfl, rfl, rfl⟩

/-- C15 as stated fails.  On a fresh writer `append_buffered` of 32762 bytes
falls through to the direct path (`0 + 7 + 32762 > 32768`), so no call took
the buffered path and the total the claim gives for `size_` is 0; the call
returns with `size_ = 32769`. -/
theorem C15_fallthrough_counts_in_size :
    32768 < fresh.block_offset_ + (7 + (List.replicate 32762 0).length) ∧
    specSize sizeTypeLayout fresh [Op.append_buffered (List.replicate 32762 0)] = 0 ∧
    ∃ w : Writer,
      run sizeTypeLayout fresh [Op.append_buffered (List.replicate 32762 0)] = .ok w ∧
      w.size_ = 32769 := by
  have hL : sizeTypeLayout.WellFormed := by decide
  have hlen : (List.replicate 32762 0).length = 32762 := List.length_replicate _ _
  have hover : kBlockSize <
      fresh.block_offset_ + (kHeaderSize + (List.replicate 32762 0).length) := by
    rw [hlen]; decide
  refine ⟨by rw [hlen]; decide, specSize_single_overflow _ _ _ hover, ?_⟩
  obtain ⟨w, h1, _, h3, _⟩ :=
    run_spec hL [Op.append_buffered (List.replicate 32762 0)] fresh (by decide)
  refine ⟨w, h1, ?_⟩
  rw [h3, enqueuedSize_single_buffered, hlen]
  rfl

/-- C15, amended (size accounting).  For every sequence of `append`,
`append_buffered`, `flush` and `sync` calls on a freshly opened writer, all
calls return and `size_` equals the sum of `7 + |data|` over all
`append_buffered data` calls of the sequence, those that took the buffered
path and those that fell through to the direct path alike; `append`, `flush`
and `sync` calls do not change `size_`. -/
theorem C15_size_accounting (L : LogRecordLayout) (hL : L.WellFormed) (ops : List Op) :
    (∃ w : Writer, run L fresh ops = .ok w ∧ w.size_ = enqueuedSize ops) ∧
    (∀ (data : List Nat) (rest : List Op),
      enqueuedSize (Op.append_buffered data :: rest) = 7 + data.length + enqueuedSize rest ∧
      enqueuedSize (Op.append data :: rest) = enqueuedSize rest ∧
      enqueuedSize (Op.flush :: rest) = enqueuedSize rest ∧
      enqueuedSize (Op.sync :: rest) = enqueuedSize rest) ∧
    enqueuedSize [] = 0 := by
  refine ⟨?_, fun data rest => ⟨rfl, rfl, rfl, rfl⟩, rfl⟩
  obtain ⟨w, h1, _, h3, _⟩ := run_spec hL ops fresh (by decide)
  refine ⟨w, h1, ?_⟩
  rw [h3]
  exact Nat.zero_add _

theorem C15_size_accounting_witness :
    sizeTypeLayout.WellFormed ∧
    (∃ w : Writer,
      run sizeTypeLayout fresh
        [Op.append_buffered [1, 2], Op.append [3], Op.flush, Op.append_buffered []] = .ok w ∧
      w.size_ =
        enqueuedSize [Op.append_buffered [1, 2], Op.append [3], Op.flush, Op.append_buffered []]) ∧
    (∀ (data : List Nat) (rest : List Op),
      enqueuedSize (Op.append_buffered data :: rest) = 7 + data.length + enqueuedSize rest ∧
      enqueuedSize (Op.append data :: rest) = enqueuedSize rest ∧
      enqueuedSize (Op.flush :: rest) = enqueuedSize rest ∧
      enqueuedSize (Op.sync :: rest) = enqueuedSize rest) ∧
    enqueuedSize [] = 0 :=
  ⟨by decide,
    C15_size_accounting sizeTypeLayout (by decide)
      [Op.append_buffered [1, 2], Op.append [3], Op.flush, Op.append_buffered []]⟩

/-- C16 as stated fails.  On a fresh writer `append` of 32760 bytes returns
with `block_offset_ = 32767`: one byte is left in the block, so neither
`block_offset_ + 7 ≤ 32768` nor `block_offset_ = 32768` holds. -/
theorem C16_offset_inside_trailer :
    ∃ w : Writer,
      run sizeTypeLayout fresh [Op.append (List.replicate 32760 0)] = .ok w ∧
      w.block_offset_ = 32767 ∧
      ¬ (w.block_offset_ + 7 ≤ 32768 ∨ w.block_offset_ = 32768) := by
  exact append_32760_on_fresh (List.replicate 32760 0) (List.length_replicate _ _)

/-- C16, amended (range of `block_offset_`).  In every state reachable from a
freshly opened writer by any sequence of `append`, `append_buffered`, `flush`
and `sync` calls, all of which return, `block_offset_ ≤ 32768` holds between
operations. -/
theorem C16_block_offset_range (L : LogRecordLayout) (hL : L.WellFormed) (ops : List Op) :
    ∃ w : Writer, run L fresh ops = .ok w ∧ w.block_offset_ ≤ 32768 := by
  obtain ⟨w, h1, h2, _, _⟩ := run_spec hL ops fresh (by decide)
  exact ⟨w, h1, h2⟩

theorem C16_block_offset_range_witness :
    sizeTypeLayout.WellFormed ∧
    ∃ w : Writer,
      run sizeTypeLayout fresh [Op.append [1], Op.append_buffered [2], Op.flush] = .ok w ∧
      w.block_offset_ ≤ 32768 :=
  ⟨by decide,
    C16_block_offset_range sizeTypeLayout (by decide)
      [Op.append [1], Op.append_buffered [2], Op.flush]⟩

/-- C17, evaluated at a failing input.  On a fresh writer the calls
`append_buffered` of 32000 bytes, `append` of 755 bytes and `append_buffered`
of 1000 bytes all return; the direct `append` moves `block_offset_` into the
next block without flushing the buffer, so the second `append_buffered` takes
the buffered path again and the buffer then holds 33014 bytes, more than
32768. -/
theorem C17_buffer_exceeds_block :
    ∃ w : Writer,
      run sizeTypeLayout fresh
        [Op.append_buffered (List.replicate 32000 0), Op.append (List.replicate 755 0),
          Op.append_buffered (List.replicate 1000 0)] = .ok w ∧
      w.rep_.length = 33014 ∧ w.block_offset_ = 1015 :=
  buffer_exceeds_block _ _ _ (List.length_replicate _ _) (List.length_replicate _ _)
    (List.length_replicate _ _)

/-- C18, evaluated at a failing input.  On a fresh writer the calls
`append_buffered [1]`, `append [2]` return; the second call wrote eight bytes
to the file, which then has length 8, while `block_offset_` is 16, and 16 is
not congruent to 8 modulo 32768. -/
theorem C18_offset_ahead_of_file :
    run sizeTypeLayout fresh [Op.append_buffered [1], Op.append [2]] =
      .ok { file_ := [headerBytes sizeTypeLayout RecordType.kFullType [2], [2]]
            block_offset_ := 16
            size_ := 8
            rep_ := headerBytes sizeTypeLayout RecordType.kFullType [1] ++ [1]
            emitted := [⟨RecordType.kFullType, [2], 8⟩] } ∧
    ([headerBytes sizeTypeLayout RecordType.kFullType [2], [2]] : List (List Nat)).flatten.length
      = 8 ∧
    (16 : Nat) % 32768 ≠ 8 % 32768 := by
  refine ⟨by rfl, by rfl, by decide⟩

/-- C19, evaluated at a failing input.  With exactly 7 bytes left in the block
(`block_offset_ = 32761`), one byte of data and a non-zero `errno`, the first
iteration of the loop of `append` writes the header of a `FIRST` fragment of
length zero; its write of zero payload bytes is reported as a failure and the
call leaves by the exception.  `block_offset_` is still 32761, not 32768, no
second iteration runs and no `LAST` fragment is written. -/
theorem C19_zero_length_fragment_throws (errno : Nat) (herr : errno ≠ 0) :
    AppendRecordPosix errno sizeTypeLayout { fresh with block_offset_ := 32761 } [1] =
      .threw { fresh with
        file_ := [[62, 184, 79, 17, 0, 0, 2], []]
        block_offset_ := 32761
        emitted := [⟨RecordType.kFirstType, [], 32761⟩] } := by
  cases errno with
  | zero => exact absurd rfl herr
  | succ n => rfl

theorem C19_zero_length_fragment_throws_witness :
    (5 : Nat) ≠ 0 ∧
    AppendRecordPosix 5 sizeTypeLayout { fresh with block_offset_ := 32761 } [1] =
      .threw { fresh with
        file_ := [[62, 184, 79, 17, 0, 0, 2], []]
        block_offset_ := 32761
        emitted := [⟨RecordType.kFirstType, [], 32761⟩] } :=
  ⟨by decide, C19_zero_length_fragment_throws 5 (by decide)⟩

end wal
